import Mathlib

/-
  Verification development for the SuperModel resource-pack build pipeline.

  The development shallowly embeds the pipeline orchestrator (src/main.ts),
  the item-model staging queue (library ItemModel class), and the item-model
  generator / dispatch-table merge engine
  (src/generators/internal/itemModel.ts) as pure Lean functions, and proves
  properties of those functions.

  Modelling conventions:
  - strings are lists of characters (Chars); JS string concatenation is list
    append; a character code (charCodeAt) is Char.toNat (all strings of
    interest are in the basic plane, where code units and scalar values agree);
  - JS numbers holding integer values are Int, with the 32-bit signed
    truncation performed by the shift operator made explicit (toInt32);
  - JSON-like JS values are the inductive type Json;
  - filesystem and network effects are explicit inputs/outputs: reads are
    functions into Option, writes are returned as lists of (path, content)
    pairs, and a fatal process exit (Deno.exit) is the result none;
  - asynchronous fan-out (Promise.all over definitions / types) is modelled
    as sequential left-to-right processing in worklist order.
-/

set_option maxRecDepth 4000

abbrev Chars := List Char

/-! ## JSON-like values and their serialization (JSON.stringify, no indent) -/

inductive Json where
  | null : Json
  | bool : Bool → Json
  | num : Int → Json
  | str : Chars → Json
  | arr : List Json → Json
  | obj : List (Chars × Json) → Json

/-- JS JSON.stringify escaping of a single character inside a string literal. -/
def escChar (c : Char) : Chars :=
  if c = '"' then ['\\', '"']
  else if c = '\\' then ['\\', '\\']
  else if c = '\n' then ['\\', 'n']
  else if c = '\t' then ['\\', 't']
  else if c = '\r' then ['\\', 'r']
  else if c.toNat = 8 then ['\\', 'b']
  else if c.toNat = 12 then ['\\', 'f']
  else if c.toNat < 32 then
    ['\\', 'u', '0', '0', Nat.digitChar (c.toNat / 16), Nat.digitChar (c.toNat % 16)]
  else [c]

def escString (s : Chars) : Chars := s.flatMap escChar

/-- Digits of a natural number, most significant first. -/
def natCharsAux : Nat → Chars → Chars
  | 0, acc => acc
  | n + 1, acc => natCharsAux ((n + 1) / 10) (Nat.digitChar ((n + 1) % 10) :: acc)
decreasing_by exact Nat.div_lt_self (Nat.succ_pos n) (by norm_num)

def natChars (n : Nat) : Chars := if n = 0 then ['0'] else natCharsAux n []

def intChars (n : Int) : Chars :=
  if n < 0 then '-' :: natChars n.natAbs else natChars n.natAbs

/-- Serialization of a string value, quotes included. -/
def quoteStr (s : Chars) : Chars := '"' :: escString s ++ ['"']

mutual

/-- JSON.stringify(v) with no indent argument, over the Json embedding. -/
def stringify : Json → Chars
  | .null => "null".data
  | .bool true => "true".data
  | .bool false => "false".data
  | .num n => intChars n
  | .str s => quoteStr s
  | .arr xs => '[' :: stringifyArr xs ++ [']']
  | .obj kvs => '{' :: stringifyObj kvs ++ ['}']

def stringifyArr : List Json → Chars
  | [] => []
  | [x] => stringify x
  | x :: y :: rest => stringify x ++ ',' :: stringifyArr (y :: rest)

def stringifyObj : List (Chars × Json) → Chars
  | [] => []
  | [kv] => quoteStr kv.1 ++ ':' :: stringify kv.2
  | kv :: kv2 :: rest => quoteStr kv.1 ++ ':' :: stringify kv.2 ++ ',' :: stringifyObj (kv2 :: rest)

end

/-! ## The legacy string hash and threshold assignment
    (hashString / generateUniqueThreshold, itemModel.ts lines 778-790) -/

/-- ToInt32 conversion of an integer-valued JS number: reduce modulo 2^32 into
the signed range [-2^31, 2^31). -/
def toInt32 (n : Int) : Int := (n + 2 ^ 31).emod (2 ^ 32) - 2 ^ 31

/-- One step of the hash loop: hash = str.charCodeAt(i) + ((hash << 5) - hash).
The JS shift converts hash to a signed 32-bit integer and keeps the low 32 bits
of the shift; the outer subtraction and addition are exact. -/
def jsHashStep (h : Int) (c : Char) : Int := (c.toNat : Int) + (toInt32 (toInt32 h * 32) - h)

/-- hashString from itemModel.ts: the character-weighted running sum with
Math.abs applied at the end. -/
def hashString (s : Chars) : Nat := (s.foldl jsHashStep 0).natAbs

/-- Threshold starting point for model ids (custom_model_data). -/
def THRESHOLD_START : Nat := 32767

/-- generateUniqueThreshold from itemModel.ts: a stable 1-8 digit offset above
THRESHOLD_START, a pure function of the model id string. -/
def generateUniqueThreshold (modelId : Chars) : Nat :=
  THRESHOLD_START + hashString modelId % 10000000

/-! ## Dispatch-table data model (itemModel.ts internal types, lines 792-797)

    Entry model values are kept in their serialized (JSON text) form: the code
    produces them textually (applyVariableSubstitution stringifies, replaces
    and reparses) and writes them back out as JSON text, so the serialized
    string is the faithful observable. -/

structure ModelEntry where
  threshold : Int
  model : Chars
deriving DecidableEq

structure ModelWithThreshold where
  parent : Option Chars
  folder : Chars
  id : Chars
  threshold : Int
deriving DecidableEq

structure ModelRef where
  parent : Option Chars
  folder : Chars
  id : Chars
  definition : Option Json

structure DispatchModel where
  kind : Chars
  property : Chars
  fallback : Json
  index : Int
  entries : List ModelEntry

/-- Default definition that is added as an entry for item models without
overriding definitions (defaultDispatchDefinition, itemModel.ts 766-776). -/
def defaultDispatchDefinition (typeName : Chars) (fallbackModel : Option Json) : DispatchModel :=
  { kind := "range_dispatch".data
    property := "custom_model_data".data
    fallback := fallbackModel.getD (.obj [("type".data, .str "model".data),
                                          ("model".data, .str ("item/".data ++ typeName))])
    index := 0
    entries := [] }

/-! ## Placeholder substitution (applyVariableSubstitution, itemModel.ts 750-763)

    The code serializes the definition tree, then for each replacement key
    replaces every occurrence of the quoted key (a literal global regex) with
    either a re-quoted string value or the serialized replacement tree, and
    reparses. The replacement scan is modelled by replaceAll: leftmost match,
    non-overlapping, replaced segments not rescanned. -/

inductive RepVal where
  | strV (v : Chars)
  | jsonV (j : Json)

/-- Replacement text spliced in for one key: a string value is re-quoted, an
object value is serialized ("$\x7bval\x7d" vs JSON.stringify(val)). -/
def repChars : RepVal → Chars
  | .strV v => '"' :: v ++ ['"']
  | .jsonV j => stringify j

/-- Literal global string replacement: leftmost occurrence first, replaced text
is not rescanned. This is the behavior of String.prototype.replace with a
global regex of an escaped (hence literal) pattern. -/
def replaceAll (pat rep : Chars) : Chars → Chars
  | [] => []
  | c :: rest =>
    if h : pat ≠ [] ∧ pat.isPrefixOf (c :: rest) then
      rep ++ replaceAll pat rep ((c :: rest).drop pat.length)
    else
      c :: replaceAll pat rep rest
termination_by s => s.length
decreasing_by
  · have hp : pat.length ≠ 0 := by
      intro h0
      exact h.1 (List.eq_nil_of_length_eq_zero h0)
    simp only [List.length_drop, List.length_cons]
    omega
  · simp only [List.length_cons]
    omega

/-- applyVariableSubstitution from itemModel.ts, up to the final JSON.parse:
serialize the definition, then fold the replacement entries in order, each
replacing the whole quoted token. The result is the JSON text the code parses
into the entry model. -/
def applyVariableSubstitution (definition : Json) (replacements : List (Chars × RepVal)) : Chars :=
  replacements.foldl (fun s kv => replaceAll ('"' :: kv.1 ++ ['"']) (repChars kv.2) s)
    (stringify definition)

/-! ## The merge loop of updateItemDefinition (itemModel.ts 834-873) -/

/-- The replacement list built at itemModel.ts 841-848, in Object.entries
order of the literal: fallback, model, type, parent, folder, id. -/
def entryReplacements (fallbackDefinition : Json) (modelPath typeName : Chars)
    (parent : Option Chars) (folder id : Chars) : List (Chars × RepVal) :=
  [("$fallback".data, .jsonV fallbackDefinition),
   ("$model".data, .strV modelPath),
   ("$type".data, .strV typeName),
   ("$parent".data, .strV (parent.getD [])),
   ("$folder".data, .strV folder),
   ("$id".data, .strV id)]

/-- The model value of a new entry for one reference: the substituted
override-definition template if the definition carried one, else a plain
reference to the written model (itemModel.ts 837-849). -/
def entryModelFor (vanillaFallback : Option Json) (typeName : Chars) (ref : ModelRef) : Chars :=
  let modelPath := "supermodel:item/".data ++ ref.folder ++ '/' :: ref.id
  let fallbackDefinition := vanillaFallback.getD
    (.obj [("type".data, .str "model".data), ("model".data, .str ("item/".data ++ typeName))])
  match ref.definition with
  | some baseDefinition =>
      applyVariableSubstitution baseDefinition
        (entryReplacements fallbackDefinition modelPath typeName ref.parent ref.folder ref.id)
  | none => stringify (.obj [("type".data, .str "model".data), ("model".data, .str modelPath)])

/-- Threshold computed for one reference (itemModel.ts 851). -/
def refThreshold (ref : ModelRef) : Int :=
  (generateUniqueThreshold (ref.folder ++ '/' :: ref.id) : Int)

/-- Collision warning logged when a threshold is already in use
(itemModel.ts 853). -/
def collisionWarning (ref : ModelRef) (t : Int) : Chars :=
  "Skipping entry for \"".data ++ ref.folder ++ '/' :: ref.id ++
    "\": threshold ".data ++ intChars t ++ " already in use.".data

/-- Result of draining the reference list: final entries, final taken-threshold
set, assigned (folder, id, threshold) records, and collision warnings. -/
structure MergeResult where
  entries : List ModelEntry
  taken : List Int
  assigned : List ModelWithThreshold
  warnings : List Chars

/-- The for-loop over modelRefs in updateItemDefinition (itemModel.ts 836-873):
skip a reference whose threshold is taken (warning); otherwise append its
entry, mark the threshold used, record the assignment, and if the adjacent
threshold + 1 slot is unused append a fallback-echo entry there too. -/
def mergeLoop (vanillaFallback : Option Json) (typeName : Chars) :
    List ModelRef → List ModelEntry → List Int → MergeResult
  | [], entries, taken => ⟨entries, taken, [], []⟩
  | ref :: rest, entries, taken =>
    let t := refThreshold ref
    if t ∈ taken then
      let r := mergeLoop vanillaFallback typeName rest entries taken
      ⟨r.entries, r.taken, r.assigned, collisionWarning ref t :: r.warnings⟩
    else
      let entries1 := entries ++ [⟨t, entryModelFor vanillaFallback typeName ref⟩]
      let taken1 := t :: taken
      let fallbackDefinition := vanillaFallback.getD
        (.obj [("type".data, .str "model".data), ("model".data, .str ("item/".data ++ typeName))])
      let next :=
        if t + 1 ∈ taken1 then (entries1, taken1)
        else (entries1 ++ [⟨t + 1, stringify fallbackDefinition⟩], (t + 1) :: taken1)
      let r := mergeLoop vanillaFallback typeName rest next.1 next.2
      ⟨r.entries, r.taken,
       ⟨ref.parent, ref.folder, ref.id, t⟩ :: r.assigned, r.warnings⟩

/-- updateItemDefinition (itemModel.ts 800-879) as a pure function: the loaded
table (none when the file is absent or structurally invalid) is defaulted,
its trailing entry (the previous fallback-echo) is removed, the taken set is
built, the references are folded in, and the rewritten table plus the
per-reference threshold report and warnings are returned. -/
def updateItemDefinition (loaded : Option DispatchModel) (typeName : Chars)
    (modelRefs : List ModelRef) (vanillaFallback : Option Json) :
    DispatchModel × List ModelWithThreshold × List Chars :=
  let data := loaded.getD (defaultDispatchDefinition typeName vanillaFallback)
  let entries := data.entries.dropLast
  let taken := entries.map (·.threshold)
  let r := mergeLoop vanillaFallback typeName modelRefs entries taken
  ({ data with entries := r.entries }, r.assigned, r.warnings)

/-! ## Helper lemmas about the merge loop -/

theorem mergeLoop_assigned_threshold (vf : Option Json) (ty : Chars) :
    ∀ (refs : List ModelRef) (entries : List ModelEntry) (taken : List Int),
      ∀ x ∈ (mergeLoop vf ty refs entries taken).assigned,
        x.threshold = (generateUniqueThreshold (x.folder ++ '/' :: x.id) : Int) := by
  intro refs
  induction refs with
  | nil => intro entries taken x hx; simp [mergeLoop] at hx
  | cons ref rest ih =>
    intro entries taken x hx
    simp only [mergeLoop] at hx
    split at hx
    · exact ih _ _ x hx
    · simp only [List.mem_cons] at hx
      rcases hx with h | h
      · subst h; rfl
      · exact ih _ _ x h

/-- C1: every threshold assigned by the merge engine equals 32767 plus
(|h| mod 10,000,000), where h iterates charCode(c) + ((h << 5) - h) from 0
over the string folder/id with signed 32-bit truncation inside the shift; and
since the threshold is this pure function of the folder/id pair, any two
assignments for the same pair, in the same or in different runs, agree. -/
theorem assigned_threshold_is_pure_hash
    (loaded : Option DispatchModel) (typeName : Chars) (refs : List ModelRef)
    (vf : Option Json)
    (loaded2 : Option DispatchModel) (typeName2 : Chars) (refs2 : List ModelRef)
    (vf2 : Option Json) :
    (∀ x ∈ (updateItemDefinition loaded typeName refs vf).2.1,
        x.threshold =
          ((32767 + (List.foldl jsHashStep 0 (x.folder ++ '/' :: x.id)).natAbs % 10000000 : Nat) :
            Int)) ∧
    (∀ x ∈ (updateItemDefinition loaded typeName refs vf).2.1,
      ∀ y ∈ (updateItemDefinition loaded2 typeName2 refs2 vf2).2.1,
        x.folder = y.folder → x.id = y.id → x.threshold = y.threshold) := by
  have key : ∀ (l : Option DispatchModel) (ty : Chars) (rs : List ModelRef) (v : Option Json),
      ∀ x ∈ (updateItemDefinition l ty rs v).2.1,
        x.threshold =
          ((32767 + (List.foldl jsHashStep 0 (x.folder ++ '/' :: x.id)).natAbs % 10000000 : Nat) :
            Int) := by
    intro l ty rs v x hx
    have := mergeLoop_assigned_threshold v ty rs _ _ x hx
    simpa [generateUniqueThreshold, hashString, THRESHOLD_START] using this
  refine ⟨key loaded typeName refs vf, ?_⟩
  intro x hx y hy hfolder hid
  rw [key loaded typeName refs vf x hx, key loaded2 typeName2 refs2 vf2 y hy, hfolder, hid]

/-- Witness for assigned_threshold_is_pure_hash: a concrete merge run assigning
the red_apple/red_apple reference, whose threshold evaluates to 3582600. -/
theorem assigned_threshold_is_pure_hash_witness :
    (⟨none, "red_apple".data, "red_apple".data, (3582600 : Int)⟩ : ModelWithThreshold) ∈
        (updateItemDefinition none "apple".data
          [⟨none, "red_apple".data, "red_apple".data, none⟩] none).2.1 ∧
    ((3582600 : Int) =
      ((32767 + (List.foldl jsHashStep 0
          ("red_apple".data ++ '/' :: "red_apple".data)).natAbs % 10000000 : Nat) : Int)) := by
  have hmem : (⟨none, "red_apple".data, "red_apple".data, (3582600 : Int)⟩ : ModelWithThreshold) ∈
      (updateItemDefinition none "apple".data
        [⟨none, "red_apple".data, "red_apple".data, none⟩] none).2.1 := by decide
  exact ⟨hmem,
    (assigned_threshold_is_pure_hash none "apple".data
        [⟨none, "red_apple".data, "red_apple".data, none⟩] none none "apple".data [] none).1
      _ hmem⟩

theorem mergeLoop_entries_distinct (vf : Option Json) (ty : Chars) :
    ∀ (refs : List ModelRef) (entries : List ModelEntry) (taken : List Int),
      (∀ e ∈ entries, e.threshold ∈ taken) →
      entries.Pairwise (fun a b => a.threshold ≠ b.threshold) →
      (mergeLoop vf ty refs entries taken).entries.Pairwise
        (fun a b => a.threshold ≠ b.threshold) := by
  intro refs
  induction refs with
  | nil => intro entries taken hmem hdist; simpa [mergeLoop] using hdist
  | cons ref rest ih =>
    intro entries taken hmem hdist
    simp only [mergeLoop]
    split
    · exact ih entries taken hmem hdist
    · rename_i htaken
      have hdist1 : (entries ++ ([⟨refThreshold ref, entryModelFor vf ty ref⟩] :
            List ModelEntry)).Pairwise
          (fun a b => a.threshold ≠ b.threshold) := by
        rw [List.pairwise_append]
        refine ⟨hdist, List.pairwise_singleton _ _, ?_⟩
        intro a ha b hb
        simp only [List.mem_singleton] at hb
        subst hb
        intro hcontra
        change a.threshold = refThreshold ref at hcontra
        exact htaken (hcontra ▸ hmem a ha)
      have hmem1 : ∀ e ∈ entries ++ [⟨refThreshold ref, entryModelFor vf ty ref⟩],
          e.threshold ∈ refThreshold ref :: taken := by
        intro e he
        rcases List.mem_append.mp he with h | h
        · exact List.mem_cons_of_mem _ (hmem e h)
        · simp only [List.mem_singleton] at h
          subst h
          exact List.mem_cons_self _ _
      split
      · exact ih _ _ hmem1 hdist1
      · rename_i hecho
        apply ih
        · intro e he
          rcases List.mem_append.mp he with h | h
          · exact List.mem_cons_of_mem _ (hmem1 e h)
          · simp only [List.mem_singleton] at h
            subst h
            exact List.mem_cons_self _ _
        · rw [List.pairwise_append]
          refine ⟨hdist1, List.pairwise_singleton _ _, ?_⟩
          intro a ha b hb
          simp only [List.mem_singleton] at hb
          subst hb
          intro hcontra
          change a.threshold = refThreshold ref + 1 at hcontra
          exact hecho (hcontra ▸ hmem1 a ha)

/-- C4: if the entries retained from the loaded table, after the trailing
fallback-echo entry is removed, have pairwise-distinct thresholds, then the
persisted table written by the merge engine, fallback-echo insertions at
threshold + 1 included, has pairwise-distinct threshold values. -/
theorem written_table_thresholds_distinct
    (loaded : Option DispatchModel) (typeName : Chars) (refs : List ModelRef)
    (vf : Option Json)
    (hretained : ((loaded.getD (defaultDispatchDefinition typeName vf)).entries.dropLast).Pairwise
      (fun a b => a.threshold ≠ b.threshold)) :
    (updateItemDefinition loaded typeName refs vf).1.entries.Pairwise
      (fun a b => a.threshold ≠ b.threshold) := by
  unfold updateItemDefinition
  apply mergeLoop_entries_distinct
  · intro e he
    exact List.mem_map_of_mem (·.threshold) he
  · exact hretained

/-- Witness for written_table_thresholds_distinct: merging two references into
a loaded table with two retained distinct entries plus a trailing fallback-echo
yields a table with pairwise-distinct thresholds. -/
theorem written_table_thresholds_distinct_witness :
    ((((some ⟨"range_dispatch".data, "custom_model_data".data, .null, 0,
          [⟨100, "a".data⟩, ⟨200, "b".data⟩, ⟨201, "c".data⟩]⟩ :
        Option DispatchModel)).getD
          (defaultDispatchDefinition "apple".data none)).entries.dropLast.Pairwise
      (fun a b => a.threshold ≠ b.threshold)) ∧
    (updateItemDefinition
        (some ⟨"range_dispatch".data, "custom_model_data".data, .null, 0,
          [⟨100, "a".data⟩, ⟨200, "b".data⟩, ⟨201, "c".data⟩]⟩)
        "apple".data
        [⟨none, "red_apple".data, "red_apple".data, none⟩,
         ⟨none, "red_apple".data, "red_apple".data, none⟩] none).1.entries.Pairwise
      (fun a b => a.threshold ≠ b.threshold) := by
  constructor
  · decide
  · exact written_table_thresholds_distinct _ _ _ _ (by decide)

theorem mergeLoop_append (vf : Option Json) (ty : Chars) :
    ∀ (xs ys : List ModelRef) (entries : List ModelEntry) (taken : List Int),
      mergeLoop vf ty (xs ++ ys) entries taken =
        let r1 := mergeLoop vf ty xs entries taken
        let r2 := mergeLoop vf ty ys r1.entries r1.taken
        ⟨r2.entries, r2.taken, r1.assigned ++ r2.assigned, r1.warnings ++ r2.warnings⟩ := by
  intro xs
  induction xs with
  | nil => intro ys entries taken; simp [mergeLoop]
  | cons ref rest ih =>
    intro ys entries taken
    simp only [List.cons_append, mergeLoop]
    split
    · simp [ih ys entries taken]
    · simp [ih ys]

theorem mergeLoop_taken_mono (vf : Option Json) (ty : Chars) :
    ∀ (refs : List ModelRef) (entries : List ModelEntry) (taken : List Int),
      taken ⊆ (mergeLoop vf ty refs entries taken).taken := by
  intro refs
  induction refs with
  | nil => intro entries taken; simp [mergeLoop]
  | cons ref rest ih =>
    intro entries taken
    simp only [mergeLoop]
    split
    · exact ih entries taken
    · split
      · exact fun t ht => ih _ _ (List.mem_cons_of_mem _ ht)
      · exact fun t ht =>
          ih _ _ (List.mem_cons_of_mem _ (List.mem_cons_of_mem _ ht))

theorem mergeLoop_thr_mem (vf : Option Json) (ty : Chars) :
    ∀ (refs : List ModelRef) (entries : List ModelEntry) (taken : List Int),
      ∀ ref ∈ refs, refThreshold ref ∈ (mergeLoop vf ty refs entries taken).taken := by
  intro refs
  induction refs with
  | nil => intro entries taken ref h; simp at h
  | cons r rest ih =>
    intro entries taken ref href
    rcases List.mem_cons.mp href with h | h
    · subst h
      simp only [mergeLoop]
      split
      · rename_i htk
        exact mergeLoop_taken_mono vf ty rest entries taken htk
      · split
        · exact mergeLoop_taken_mono vf ty rest _ _ (List.mem_cons_self _ _)
        · exact mergeLoop_taken_mono vf ty rest _ _
            (List.mem_cons_of_mem _ (List.mem_cons_self _ _))
    · simp only [mergeLoop]
      split
      · exact ih entries taken ref h
      · split
        · exact ih _ _ ref h
        · exact ih _ _ ref h

theorem mergeLoop_taken_bound (vf : Option Json) (ty : Chars) :
    ∀ (refs : List ModelRef) (entries : List ModelEntry) (taken : List Int),
      ∀ t ∈ (mergeLoop vf ty refs entries taken).taken,
        t ∈ taken ∨ ∃ r ∈ refs, t = refThreshold r ∨ t = refThreshold r + 1 := by
  intro refs
  induction refs with
  | nil => intro entries taken t ht; left; simpa [mergeLoop] using ht
  | cons ref rest ih =>
    intro entries taken t ht
    simp only [mergeLoop] at ht
    split at ht
    · rcases ih entries taken t ht with h | ⟨r, hr, hor⟩
      · left; exact h
      · right; exact ⟨r, List.mem_cons_of_mem _ hr, hor⟩
    · split at ht
      · rcases ih _ _ t ht with h | ⟨r, hr, hor⟩
        · rcases List.mem_cons.mp h with h0 | h0
          · right; exact ⟨ref, List.mem_cons_self _ _, Or.inl h0⟩
          · left; exact h0
        · right; exact ⟨r, List.mem_cons_of_mem _ hr, hor⟩
      · rcases ih _ _ t ht with h | ⟨r, hr, hor⟩
        · rcases List.mem_cons.mp h with h0 | h0
          · right; exact ⟨ref, List.mem_cons_self _ _, Or.inr h0⟩
          · rcases List.mem_cons.mp h0 with h1 | h1
            · right; exact ⟨ref, List.mem_cons_self _ _, Or.inl h1⟩
            · left; exact h1
        · right; exact ⟨r, List.mem_cons_of_mem _ hr, hor⟩

/-- Record produced for one assigned reference. -/
def assignedRecord (r : ModelRef) : ModelWithThreshold :=
  ⟨r.parent, r.folder, r.id, refThreshold r⟩

theorem mergeLoop_clean (vf : Option Json) (ty : Chars) :
    ∀ (refs : List ModelRef) (entries : List ModelEntry) (taken : List Int),
      (∀ r ∈ refs, refThreshold r ∉ taken) →
      refs.Pairwise (fun x y => refThreshold x ≠ refThreshold y ∧
        refThreshold x + 1 ≠ refThreshold y) →
      (mergeLoop vf ty refs entries taken).assigned = refs.map assignedRecord ∧
      (mergeLoop vf ty refs entries taken).warnings = [] := by
  intro refs
  induction refs with
  | nil => intro entries taken _ _; simp [mergeLoop]
  | cons ref rest ih =>
    intro entries taken hnotin hpair
    have hhead : refThreshold ref ∉ taken := hnotin ref (List.mem_cons_self _ _)
    rcases List.pairwise_cons.mp hpair with ⟨href, htail⟩
    simp only [mergeLoop]
    rw [if_neg hhead]
    have hrest : ∀ (tk2 : List Int),
        (∀ r ∈ rest, refThreshold r ∉ tk2) →
        ∀ (e2 : List ModelEntry),
          (mergeLoop vf ty rest e2 tk2).assigned = rest.map assignedRecord ∧
          (mergeLoop vf ty rest e2 tk2).warnings = [] := by
      intro tk2 h2 e2
      exact ih e2 tk2 h2 htail
    split
    · rename_i hecho
      have h2 : ∀ r ∈ rest, refThreshold r ∉ refThreshold ref :: taken := by
        intro r hr
        simp only [List.mem_cons]
        push_neg
        exact ⟨fun hc => (href r hr).1 hc.symm, hnotin r (List.mem_cons_of_mem _ hr)⟩
      simp only [assignedRecord, List.map_cons, List.cons.injEq, true_and]
      refine ⟨?_, ?_⟩
      · exact (hrest _ h2 _).1
      · exact (hrest _ h2 _).2
    · have h2 : ∀ r ∈ rest,
          refThreshold r ∉ (refThreshold ref + 1) :: refThreshold ref :: taken := by
        intro r hr
        simp only [List.mem_cons]
        push_neg
        exact ⟨fun hc => (href r hr).2 hc.symm,
               fun hc => (href r hr).1 hc.symm,
               hnotin r (List.mem_cons_of_mem _ hr)⟩
      simp only [assignedRecord, List.map_cons, List.cons.injEq, true_and]
      refine ⟨?_, ?_⟩
      · exact (hrest _ h2 _).1
      · exact (hrest _ h2 _).2

/-- C3: if among the references merged for one type exactly two (the element b
and some earlier element a of the prefix A) hash to the same threshold, while
all other thresholds are pairwise distinct, non-adjacent and unused by the
retained entries, then the first-processed reference is written, the
second is omitted with exactly one logged collision warning and no alternate
slot (every written record keeps its own hash threshold), and the table gains
exactly one fewer new reference entry than the number of references. -/
theorem collision_skips_second
    (loaded : Option DispatchModel) (typeName : Chars) (vf : Option Json)
    (A C : List ModelRef) (b a : ModelRef)
    (ha : a ∈ A) (hab : refThreshold a = refThreshold b)
    (hinit : ∀ r ∈ A ++ C, refThreshold r ∉
        ((loaded.getD (defaultDispatchDefinition typeName vf)).entries.dropLast.map
          (·.threshold)))
    (hpair : (A ++ C).Pairwise (fun x y => refThreshold x ≠ refThreshold y ∧
        refThreshold x + 1 ≠ refThreshold y)) :
    (updateItemDefinition loaded typeName (A ++ b :: C) vf).2.1 =
        (A ++ C).map assignedRecord ∧
    (updateItemDefinition loaded typeName (A ++ b :: C) vf).2.2 =
        [collisionWarning b (refThreshold b)] ∧
    (updateItemDefinition loaded typeName (A ++ b :: C) vf).2.1.length + 1 =
        (A ++ b :: C).length := by
  have hAC : ∀ x ∈ A, ∀ y ∈ C, refThreshold x ≠ refThreshold y ∧
      refThreshold x + 1 ≠ refThreshold y :=
    (List.pairwise_append.mp hpair).2.2
  have hpairA : A.Pairwise (fun x y => refThreshold x ≠ refThreshold y ∧
      refThreshold x + 1 ≠ refThreshold y) := (List.pairwise_append.mp hpair).1
  have hpairC : C.Pairwise (fun x y => refThreshold x ≠ refThreshold y ∧
      refThreshold x + 1 ≠ refThreshold y) := (List.pairwise_append.mp hpair).2.1
  simp only [updateItemDefinition]
  set entries0 := (loaded.getD (defaultDispatchDefinition typeName vf)).entries.dropLast with he0
  set taken0 := entries0.map (·.threshold) with ht0
  rw [mergeLoop_append]
  have hcleanA := mergeLoop_clean vf typeName A entries0 taken0
    (fun r hr => hinit r (List.mem_append_left _ hr)) hpairA
  set S := mergeLoop vf typeName A entries0 taken0 with hS
  have hbmem : refThreshold b ∈ S.taken := by
    rw [← hab]
    exact mergeLoop_thr_mem vf typeName A entries0 taken0 a ha
  have hCnot : ∀ c ∈ C, refThreshold c ∉ S.taken := by
    intro c hc hmem
    rcases mergeLoop_taken_bound vf typeName A entries0 taken0 _ hmem with h0 | ⟨r, hr, hor⟩
    · exact hinit c (List.mem_append_right _ hc) h0
    · rcases hor with h1 | h1
      · exact (hAC r hr c hc).1 h1.symm
      · exact (hAC r hr c hc).2 h1.symm
  have hcleanC := mergeLoop_clean vf typeName C S.entries S.taken hCnot hpairC
  have hstep : mergeLoop vf typeName (b :: C) S.entries S.taken =
      ⟨(mergeLoop vf typeName C S.entries S.taken).entries,
       (mergeLoop vf typeName C S.entries S.taken).taken,
       (mergeLoop vf typeName C S.entries S.taken).assigned,
       collisionWarning b (refThreshold b) ::
         (mergeLoop vf typeName C S.entries S.taken).warnings⟩ := by
    simp only [mergeLoop]
    rw [if_pos hbmem]
  refine ⟨?_, ?_, ?_⟩
  · simp only [hstep, hcleanA.1, hcleanC.1, List.map_append]
  · simp only [hstep, hcleanA.2, hcleanC.2, List.nil_append]
  · simp only [hstep, hcleanA.1, hcleanC.1]
    simp [List.length_append]
    omega

/-- Witness for collision_skips_second: the same folder/id pair submitted twice
in one merge run produces one written entry and one collision warning. -/
theorem collision_skips_second_witness :
    (updateItemDefinition none "apple".data
        [⟨none, "red_apple".data, "red_apple".data, none⟩,
         ⟨none, "red_apple".data, "red_apple".data, none⟩] none).2.1 =
      [assignedRecord ⟨none, "red_apple".data, "red_apple".data, none⟩] ∧
    (updateItemDefinition none "apple".data
        [⟨none, "red_apple".data, "red_apple".data, none⟩,
         ⟨none, "red_apple".data, "red_apple".data, none⟩] none).2.2 =
      [collisionWarning ⟨none, "red_apple".data, "red_apple".data, none⟩
        (refThreshold ⟨none, "red_apple".data, "red_apple".data, none⟩)] ∧
    (updateItemDefinition none "apple".data
        [⟨none, "red_apple".data, "red_apple".data, none⟩,
         ⟨none, "red_apple".data, "red_apple".data, none⟩] none).2.1.length + 1 = 2 := by
  have h := collision_skips_second none "apple".data none
    [⟨none, "red_apple".data, "red_apple".data, none⟩] []
    ⟨none, "red_apple".data, "red_apple".data, none⟩
    ⟨none, "red_apple".data, "red_apple".data, none⟩
    (List.mem_singleton.mpr rfl) rfl
    (by intro r hr; simp [defaultDispatchDefinition])
    (by simp)
  simpa using h

/-! ## Pipeline orchestrator (buildPack, src/main.ts 90-124)

    A loaded generator module is its path, its optional loadPriority export,
    and the behavior of its entry function: exec = none means the entry
    resolves normally, exec = some msg means it throws msg. -/

structure GenModule where
  path : Chars
  loadPriority : Option Int
  exec : Option Chars
deriving DecidableEq

/-- Priority used by the comparator: a.module.loadPriority ?? 1
(main.ts 110-113). -/
def priorityOf (g : GenModule) : Int := g.loadPriority.getD 1

/-- Stable insertion of one module into an already sorted run: it goes after
every module of strictly smaller priority and before the first module of
greater-or-equal priority, which is what a stable ascending comparator sort
produces for elements in discovery order. -/
def insertByPriority (g : GenModule) : List GenModule → List GenModule
  | [] => [g]
  | h :: t => if priorityOf h < priorityOf g then h :: insertByPriority g t else g :: h :: t

/-- generators.sort((a, b) => priorityA - priorityB) (main.ts 109-114): a
stable ascending sort on priorityOf. -/
def sortGens : List GenModule → List GenModule
  | [] => []
  | x :: xs => insertByPriority x (sortGens xs)

/-- The execution loop over the sorted generators (main.ts 116-120): each entry
function is awaited in turn; there is no try/catch around the calls, so a
throw propagates out of buildPack. Returns the paths invoked, in order, and
the propagated error if one occurred. -/
def runGenerators : List GenModule → List Chars × Option Chars
  | [] => ([], none)
  | g :: rest =>
    match g.exec with
    | none => ((runGenerators rest).1.cons g.path, (runGenerators rest).2)
    | some e => ([g.path], some e)

/-- The collection phase (main.ts 95-107): each discovered file is loaded
inside try/catch; a load failure (none) is logged and the module excluded,
a loaded module with a callable default export is kept. -/
def collectGenerators (discovered : List (Chars × Option GenModule)) : List GenModule :=
  discovered.filterMap (·.2)

/-- The generator portion of buildPack: collect, sort, execute. -/
def buildPackGenerators (discovered : List (Chars × Option GenModule)) :
    List Chars × Option Chars :=
  runGenerators (sortGens (collectGenerators discovered))

theorem runGenerators_all_ok :
    ∀ (l : List GenModule), (∀ g ∈ l, g.exec = none) →
      runGenerators l = (l.map (·.path), none) := by
  intro l
  induction l with
  | nil => intro _; rfl
  | cons g rest ih =>
    intro hok
    have hg : g.exec = none := hok g (List.mem_cons_self _ _)
    simp only [runGenerators, hg, List.map_cons]
    rw [ih (fun x hx => hok x (List.mem_cons_of_mem _ hx))]

theorem mem_insertByPriority (g x : GenModule) :
    ∀ l, x ∈ insertByPriority g l ↔ x = g ∨ x ∈ l := by
  intro l
  induction l with
  | nil => simp [insertByPriority]
  | cons h t ih =>
    simp only [insertByPriority]
    split
    · simp only [List.mem_cons, ih]
      tauto
    · simp only [List.mem_cons]

theorem mem_sortGens (x : GenModule) : ∀ l, x ∈ sortGens l ↔ x ∈ l := by
  intro l
  induction l with
  | nil => simp [sortGens]
  | cons h t ih =>
    rw [sortGens, mem_insertByPriority, ih, List.mem_cons]

theorem sortGens_sorted :
    ∀ l, (sortGens l).Pairwise (fun x y => priorityOf x ≤ priorityOf y) := by
  have hins : ∀ (g : GenModule) (l : List GenModule),
      l.Pairwise (fun x y => priorityOf x ≤ priorityOf y) →
      (insertByPriority g l).Pairwise (fun x y => priorityOf x ≤ priorityOf y) := by
    intro g l
    induction l with
    | nil => intro _; simp [insertByPriority]
    | cons h t ih =>
      intro hp
      rcases List.pairwise_cons.mp hp with ⟨hh, ht⟩
      simp only [insertByPriority]
      split
      · rename_i hlt
        rw [List.pairwise_cons]
        refine ⟨?_, ih ht⟩
        intro y hy
        rcases (mem_insertByPriority g y t).mp hy with h1 | h1
        · subst h1; exact le_of_lt hlt
        · exact hh y h1
      · rename_i hge
        rw [List.pairwise_cons]
        refine ⟨?_, hp⟩
        intro y hy
        rcases List.mem_cons.mp hy with h1 | h1
        · subst h1; omega
        · exact le_trans (by omega) (hh y h1)
  intro l
  induction l with
  | nil => simp [sortGens]
  | cons h t ih => exact hins h (sortGens t) ih

theorem filter_insertByPriority (g : GenModule) (p : Int) :
    ∀ l, (insertByPriority g l).filter (fun x => priorityOf x == p) =
      if priorityOf g = p then g :: l.filter (fun x => priorityOf x == p)
      else l.filter (fun x => priorityOf x == p) := by
  intro l
  induction l with
  | nil =>
    by_cases hgp : priorityOf g = p
    · simp [insertByPriority, List.filter_cons, hgp]
    · simp [insertByPriority, List.filter_cons, hgp]
  | cons h t ih =>
    simp only [insertByPriority]
    split
    · rename_i hlt
      by_cases hgp : priorityOf g = p
      · have hhp : ¬ (priorityOf h == p) = true := by
          simp only [beq_iff_eq]
          omega
        simp only [List.filter_cons, hhp, if_neg, ih, hgp, if_pos]
        simp [hhp]
      · simp only [List.filter_cons, ih, hgp, if_neg]
        simp
    · by_cases hgp : priorityOf g = p
      · simp [List.filter_cons, hgp]
      · simp [List.filter_cons, hgp]

theorem sortGens_stable (p : Int) :
    ∀ l, (sortGens l).filter (fun x => priorityOf x == p) =
      l.filter (fun x => priorityOf x == p) := by
  intro l
  induction l with
  | nil => rfl
  | cons h t ih =>
    simp only [sortGens, filter_insertByPriority, List.filter_cons]
    by_cases hp : priorityOf h = p
    · simp [hp, ih]
    · simp [hp, ih]

/-- C7: for any collected list of loadable generator modules, the orchestrator
orders them ascending by loadPriority with a missing loadPriority treated as 1
and ties kept in discovery order (for each priority value, the filtered
subsequence is unchanged), and when every entry function completes it executes
exactly the sorted sequence, one after another, with no error. -/
theorem generators_run_sorted_stable
    (discovered : List (Chars × Option GenModule))
    (hok : ∀ g ∈ collectGenerators discovered, g.exec = none) :
    (∀ g : GenModule, g.loadPriority = none → priorityOf g = 1) ∧
    (sortGens (collectGenerators discovered)).Pairwise
      (fun x y => priorityOf x ≤ priorityOf y) ∧
    (∀ p : Int, (sortGens (collectGenerators discovered)).filter
        (fun x => priorityOf x == p) =
      (collectGenerators discovered).filter (fun x => priorityOf x == p)) ∧
    buildPackGenerators discovered =
      ((sortGens (collectGenerators discovered)).map (·.path), none) := by
  refine ⟨fun g hg => by simp [priorityOf, hg], sortGens_sorted _, fun p => sortGens_stable p _, ?_⟩
  unfold buildPackGenerators
  apply runGenerators_all_ok
  intro g hg
  exact hok g ((mem_sortGens g _).mp hg)

/-- Witness for generators_run_sorted_stable: three discovered modules (one
failing to load, excluded) with priorities 10, missing and 2 execute as the
sorted sequence b, c, a with no error. -/
theorem generators_run_sorted_stable_witness :
    (∀ g ∈ collectGenerators
        [("a".data, some ⟨"a".data, some 10, none⟩),
         ("x".data, none),
         ("b".data, some ⟨"b".data, none, none⟩),
         ("c".data, some ⟨"c".data, some 2, none⟩)], g.exec = none) ∧
    buildPackGenerators
        [("a".data, some ⟨"a".data, some 10, none⟩),
         ("x".data, none),
         ("b".data, some ⟨"b".data, none, none⟩),
         ("c".data, some ⟨"c".data, some 2, none⟩)] =
      (["b".data, "c".data, "a".data], none) := by
  constructor
  · decide
  · have h := (generators_run_sorted_stable
      [("a".data, some ⟨"a".data, some 10, none⟩),
       ("x".data, none),
       ("b".data, some ⟨"b".data, none, none⟩),
       ("c".data, some ⟨"c".data, some 2, none⟩)] (by decide)).2.2.2
    rw [h]
    decide

/-- C2 counterexample: a sorted worklist of two loadable generators in which
the first entry function throws; the orchestrator loop does not catch it, the
second generator is never invoked and the run aborts with the thrown error,
contradicting the claim that every remaining generator still runs. -/
theorem generator_throw_aborts_pipeline :
    "b".data ∉ (buildPackGenerators
        [("a".data, some ⟨"a".data, some 1, some "boom".data⟩),
         ("b".data, some ⟨"b".data, some 2, none⟩)]).1 ∧
    (buildPackGenerators
        [("a".data, some ⟨"a".data, some 1, some "boom".data⟩),
         ("b".data, some ⟨"b".data, some 2, none⟩)]).2 = some "boom".data := by
  decide

/-- C2 (amended): module load failures are caught and the failing module is
merely excluded, but an entry function that throws during execution is not
caught: the generators before it run, the failing one is invoked, the error
propagates and every later generator is skipped. -/
theorem generator_throw_stops_remaining
    (pre post : List GenModule) (bad : GenModule) (e : Chars)
    (hpre : ∀ g ∈ pre, g.exec = none) (hbad : bad.exec = some e) :
    runGenerators (pre ++ bad :: post) = (pre.map (·.path) ++ [bad.path], some e) ∧
    ∀ (discovered : List (Chars × Option GenModule)) (p : Chars),
      collectGenerators ((p, none) :: discovered) = collectGenerators discovered := by
  constructor
  · induction pre with
    | nil => simp [runGenerators, hbad]
    | cons g rest ih =>
      have hg : g.exec = none := hpre g (List.mem_cons_self _ _)
      have ihr := ih (fun x hx => hpre x (List.mem_cons_of_mem _ hx))
      simp only [List.cons_append, runGenerators, hg, List.append_eq, ihr, List.map_cons]
  · intro discovered p
    simp [collectGenerators]

/-- Witness for generator_throw_stops_remaining: with one succeeding generator
before a throwing one and one after, exactly the first two are invoked and the
error is propagated. -/
theorem generator_throw_stops_remaining_witness :
    (∀ g ∈ [(⟨"a".data, some 1, none⟩ : GenModule)], g.exec = none) ∧
    runGenerators [⟨"a".data, some 1, none⟩, ⟨"b".data, some 2, some "boom".data⟩,
        ⟨"c".data, some 3, none⟩] =
      (["a".data, "b".data], some "boom".data) := by
  refine ⟨by decide, ?_⟩
  have h := (generator_throw_stops_remaining [⟨"a".data, some 1, none⟩]
    [⟨"c".data, some 3, none⟩] ⟨"b".data, some 2, some "boom".data⟩ "boom".data
    (by decide) rfl).1
  simpa using h

/-! ## Item-model source definitions and the artifact resolver
    (itemModel.ts generate, lines 25-167, and its helpers)

    File paths are built with a forward-slash join; a disk-discovered source
    file is identified by its path segments relative to the supermodel items
    source directory (the walk yields them in directory-traversal order). -/

/-- A model specification: a model file name, or an inline raw model carrying
an optional parent namespace, a name and a raw tree. -/
inductive ModelSpec where
  | file (name : Chars)
  | raw (parent : Option Chars) (name : Chars) (data : Json)

structure ItemModelDetails where
  type : Option Chars := none
  types : Option (List Chars) := none
  texture : Option Chars := none
  textures : Option (List (Chars × Chars)) := none
  model : Option ModelSpec := none
  models : Option (List (Chars × ModelSpec)) := none
  definition : Option Json := none

/-- getItemTypes (itemModel.ts 635-640): models keys, else types, else the
single type, else empty. -/
def getItemTypes (d : ItemModelDetails) : List Chars :=
  match d.models with
  | some ms => ms.map (·.1)
  | none =>
    match d.types with
    | some ts => ts
    | none =>
      match d.type with
      | some t => [t]
      | none => []

/-- gatherTextureMap (itemModel.ts 642-647): a non-empty explicit map wins;
else a single texture becomes a one-entry layer0 map tagged single-origin. -/
def gatherTextureMap (d : ItemModelDetails) : List (Chars × Chars) × Bool :=
  match d.textures with
  | some ts =>
    if ts ≠ [] then (ts, false)
    else
      match d.texture with
      | some t => ([("layer0".data, t)], true)
      | none => ([], false)
  | none =>
    match d.texture with
    | some t => ([("layer0".data, t)], true)
    | none => ([], false)

/-- Index of the final dot of a name, if any. -/
def lastDotIndex (s : Chars) : Option Nat :=
  ((List.range s.length).filter (fun i => s.get? i = some '.')).getLast?

/-- stripExtension (itemModel.ts 649-652): cut at the last dot when it is not
the leading character. -/
def stripExtension (s : Chars) : Chars :=
  match lastDotIndex s with
  | some idx => if idx > 0 then s.take idx else s
  | none => s

/-- Final path segment (std basename over slash-joined paths). -/
def basenameChars (s : Chars) : Chars := (s.reverse.takeWhile (· ≠ '/')).reverse

/-- Whether std extname of the name is non-empty: the basename has a dot after
its first character. -/
def hasExtname (s : Chars) : Bool :=
  match lastDotIndex (basenameChars s) with
  | some idx => idx > 0
  | none => false

/-- Forward-slash path join. -/
def pathJoin (a b : Chars) : Chars := if a = [] then b else if b = [] then a else a ++ '/' :: b

/-- Slash-join of a segment list. -/
def joinSegs : List Chars → Chars
  | [] => []
  | [s] => s
  | s :: t :: rest => s ++ '/' :: joinSegs (t :: rest)

/-- buildTexturePath (itemModel.ts 654-656). -/
def buildTexturePath (modelFolder textureFile : Chars) : Chars :=
  "supermodel:item/".data ++ modelFolder ++ '/' :: stripExtension (basenameChars textureFile)

/-- buildResolvedTextureMap (itemModel.ts 658-665). -/
def buildResolvedTextureMap (textureMap : List (Chars × Chars)) (modelFolder : Chars) :
    Option (List (Chars × Chars)) :=
  if textureMap = [] then none
  else some (textureMap.map (fun kv => (kv.1, buildTexturePath modelFolder kv.2)))

/-- Whether a JSON value is the null literal (the only falsy raw model tree a
typed definition can carry). -/
def jsonIsNull : Json → Bool
  | .null => true
  | _ => false

/-- Lookup of one key in a JSON object value. -/
def jsonGet (j : Json) (k : Chars) : Option Json :=
  match j with
  | .obj kvs => (kvs.find? (fun kv => kv.1 == k)).map (·.2)
  | _ => none

/-- Keys of the declared textures object of an inline model tree, when it is
an object (itemModel.ts 670-672). -/
def modelTexturesKeys (modelData : Json) : Option (List Chars) :=
  match jsonGet modelData "textures".data with
  | some (.obj kvs) => some (kvs.map (·.1))
  | _ => none

/-- alignTextureMap (itemModel.ts 667-681): a single-origin one-entry map
adopts the inline model's first declared texture key. -/
def alignTextureMap (baseMap : List (Chars × Chars)) (cameFromSingle : Bool)
    (modelData : Json) : List (Chars × Chars) :=
  if cameFromSingle ∧ baseMap.length = 1 then
    match modelTexturesKeys modelData with
    | some (k :: _) =>
      match baseMap with
      | kv :: _ => [(k, kv.2)]
      | [] => baseMap
    | _ => baseMap
  else baseMap

/-- Replace or append the textures key of an object tree (the JS assignment
modelData.textures = resolvedTextures; non-objects are left unchanged). -/
def jsonSetTextures (j : Json) (resolved : List (Chars × Chars)) : Json :=
  let tex : Json := .obj (resolved.map (fun kv => (kv.1, .str kv.2)))
  match j with
  | .obj kvs =>
    if kvs.any (fun kv => kv.1 == "textures".data) then
      .obj (kvs.map (fun kv => if kv.1 == "textures".data then (kv.1, tex) else kv))
    else
      .obj (kvs ++ [("textures".data, tex)])
  | other => other

/-- defaultItemModel (itemModel.ts 683-689): the synthesized single-layer
generated-item model. -/
def defaultItemModel (modelFolder : Chars) (textureMap : List (Chars × Chars)) : Json :=
  let resolved := (buildResolvedTextureMap textureMap modelFolder).getD
    [("layer0".data, buildTexturePath modelFolder (basenameChars modelFolder ++ ".png".data))]
  .obj [("parent".data, .str "minecraft:item/generated".data),
        ("textures".data, .obj (resolved.map (fun kv => (kv.1, .str kv.2))))]

/-- deriveModelBaseName (itemModel.ts 691-695). -/
def deriveModelBaseName (textureMap : List (Chars × Chars)) (ty : Chars) : Chars :=
  match textureMap with
  | [] => ty ++ "_model".data
  | kv :: _ => stripExtension (basenameChars kv.2)

/-- extractParentFolder (itemModel.ts 697-711) over the source-relative path
segments: deep nesting collapses to the first two segments, three-deep to the
first, shallower files have no parent namespace. -/
def extractParentFolder (relSegments : List Chars) : Option Chars :=
  if relSegments.length ≥ 4 then
    some (relSegments.getD 0 [] ++ '/' :: relSegments.getD 1 [])
  else if relSegments.length ≥ 3 then some (relSegments.getD 0 [])
  else none

/-- resolveModelForType (itemModel.ts 734-738): per-type map entry, else the
single model field. -/
def resolveModelForType (d : ItemModelDetails) (ty : Chars) : Option ModelSpec :=
  match d.models with
  | some ms =>
    match ms.find? (fun kv => kv.1 == ty) with
    | some kv => some kv.2
    | none => d.model
  | none => d.model

/-- resolveModelFolder (itemModel.ts 713-732). -/
def resolveModelFolder (perTypeModel : Option ModelSpec) (ty : Chars)
    (textureMap : List (Chars × Chars)) (parentFolder : Option Chars) : Chars :=
  let base :=
    match perTypeModel with
    | some (.file name) => stripExtension (basenameChars name)
    | some (.raw _ name _) => stripExtension (basenameChars name)
    | none =>
      match textureMap with
      | [] => ty
      | kv :: _ => stripExtension (basenameChars kv.2)
  let parent :=
    match perTypeModel with
    | some (.raw (some p) _ _) => some p
    | _ => parentFolder
  match parent with
  | some p => p ++ '/' :: base
  | none => base

/-- One worklist item (itemModel.ts 38): a queued definition, or a
disk-discovered one with its source-relative path segments. -/
structure WorkItem where
  data : ItemModelDetails
  isFromFile : Bool
  fileRel : Option (List Chars)

/-- Effects of processing one definition: refs recorded per type in order,
texture/model file copies (src, dest), model writes (path, tree), and the
error that aborted the remaining types, if any (caught and logged per
definition at itemModel.ts 162-164). -/
structure DefOutput where
  typedRefs : List (Chars × ModelRef)
  copies : List (Chars × Chars)
  modelWrites : List (Chars × Json)
  error : Option Chars

/-- The per-type body of the resolver loop (itemModel.ts 76-161). Returns the
created reference records, copies, writes, or the per-type error. -/
def processOneType (readModelFile : Chars → Option Json) (sourceDir : Chars)
    (texturesBase modelsBase : Chars) (w : WorkItem)
    (textureMap : List (Chars × Chars)) (hasSingleTexture : Bool)
    (parentFolder : Option Chars) (ty : Chars) :
    Except Chars (List (Chars × ModelRef) × List (Chars × Chars) × List (Chars × Json)) :=
  let textureList := textureMap.map (·.2)
  let perTypeModel := resolveModelForType w.data ty
  let modelFolder := resolveModelFolder perTypeModel ty textureMap parentFolder
  let texOutDir := pathJoin texturesBase modelFolder
  let mdlOutDir := pathJoin modelsBase modelFolder
  let srcFileDir :=
    match w.fileRel with
    | some segs => pathJoin sourceDir (joinSegs segs.dropLast)
    | none => sourceDir
  let texCopies :=
    match w.fileRel with
    | some _ =>
      if w.isFromFile ∧ textureList ≠ [] then
        textureList.map (fun tex =>
          let tex2 := if hasExtname tex then tex else tex ++ ".png".data
          (pathJoin srcFileDir tex2, pathJoin texOutDir (basenameChars tex2)))
      else []
    | none => []
  match perTypeModel with
  | none =>
    if textureList = [] then
      .error ("No textures defined for type \"".data ++ ty ++ "\".".data)
    else
      let modelBase := deriveModelBaseName textureMap ty
      let modelData := defaultItemModel modelFolder textureMap
      .ok ([(ty, ⟨parentFolder, modelFolder, modelBase, w.data.definition⟩)],
           texCopies,
           [(pathJoin mdlOutDir (modelBase ++ ".json".data), modelData)])
  | some (.raw _ name data) =>
    if name = [] then
      .error ("Internal model for type \"".data ++ ty ++
        "\" is missing \"name\" property.".data)
    else if jsonIsNull data then
      .error ("Internal model \"".data ++ name ++ "\" for type \"".data ++ ty ++
        "\" is missing \"data\" property.".data)
    else
      let fileName := if ".json".data.isSuffixOf name then name else name ++ ".json".data
      let aligned := alignTextureMap textureMap hasSingleTexture data
      let modelData2 :=
        match buildResolvedTextureMap aligned modelFolder with
        | some resolved => jsonSetTextures data resolved
        | none => data
      .ok ([(ty, ⟨parentFolder, modelFolder, stripExtension fileName, w.data.definition⟩)],
           texCopies,
           [(pathJoin mdlOutDir fileName, modelData2)])
  | some (.file name) =>
    let name2 := if hasExtname name then name else name ++ ".json".data
    let modelFileName := basenameChars name2
    let writesAndCopies :=
      match w.fileRel with
      | some _ =>
        if w.isFromFile then
          let src := pathJoin srcFileDir name2
          let dest := pathJoin mdlOutDir modelFileName
          match readModelFile src with
          | some parsed =>
            let aligned := alignTextureMap textureMap hasSingleTexture parsed
            let parsed2 :=
              match buildResolvedTextureMap aligned modelFolder with
              | some resolved => jsonSetTextures parsed resolved
              | none => parsed
            (([] : List (Chars × Chars)), [(dest, parsed2)])
          | none => ([(src, dest)], ([] : List (Chars × Json)))
        else ([], [])
      | none => ([], [])
    .ok ([(ty, ⟨parentFolder, modelFolder, stripExtension modelFileName,
            w.data.definition⟩)],
         texCopies ++ writesAndCopies.1,
         writesAndCopies.2)

/-- The per-type loop (itemModel.ts 76-161): types are processed in order; a
per-type error stops the remaining types of this definition but keeps the
records and files already produced. -/
def processTypes (readModelFile : Chars → Option Json) (sourceDir : Chars)
    (texturesBase modelsBase : Chars) (w : WorkItem)
    (textureMap : List (Chars × Chars)) (hasSingleTexture : Bool)
    (parentFolder : Option Chars) : List Chars → DefOutput
  | [] => ⟨[], [], [], none⟩
  | ty :: rest =>
    match processOneType readModelFile sourceDir texturesBase modelsBase w
        textureMap hasSingleTexture parentFolder ty with
    | .error e => ⟨[], [], [], some e⟩
    | .ok (refs, copies, writes) =>
      let r := processTypes readModelFile sourceDir texturesBase modelsBase w
        textureMap hasSingleTexture parentFolder rest
      ⟨refs ++ r.typedRefs, copies ++ r.copies, writes ++ r.modelWrites, r.error⟩

/-- Parent namespace of one worklist item (itemModel.ts 73): the source-file
folder structure for disk items, else the inline model's parent. -/
def parentFolderOf (w : WorkItem) : Option Chars :=
  match w.fileRel with
  | some segs =>
    if w.isFromFile then extractParentFolder segs
    else
      match w.data.model with
      | some (.raw p _ _) => p
      | _ => none
  | none =>
    match w.data.model with
    | some (.raw p _ _) => p
    | _ => none

/-- Processing of one worklist definition (itemModel.ts 64-165): type list,
texture map, parent namespace, then the per-type loop; a definition with no
types fails on its own without touching the others. -/
def processDefinition (readModelFile : Chars → Option Json) (sourceDir : Chars)
    (texturesBase modelsBase : Chars) (w : WorkItem) : DefOutput :=
  let itemTypes := getItemTypes w.data
  if itemTypes = [] then ⟨[], [], [], some "Definition has no defined item type(s).".data⟩
  else
    let tm := gatherTextureMap w.data
    processTypes readModelFile sourceDir texturesBase modelsBase w tm.1 tm.2
      (parentFolderOf w) itemTypes

/-- Per-type accumulation into modelsAddedByType (itemModel.ts 158-160): keys
appear in first-push order, refs append in processing order. -/
def addRefsByType (acc : List (Chars × List ModelRef)) (ty : Chars)
    (newRefs : List ModelRef) : List (Chars × List ModelRef) :=
  if acc.any (fun kv => kv.1 == ty) then
    acc.map (fun kv => if kv.1 == ty then (kv.1, kv.2 ++ newRefs) else kv)
  else acc ++ [(ty, newRefs)]

def accumulateRefs (acc : List (Chars × List ModelRef)) :
    List (Chars × ModelRef) → List (Chars × List ModelRef)
  | [] => acc
  | (ty, r) :: rest => accumulateRefs (addRefsByType acc ty [r]) rest

/-! ## Vanilla reference snapshot (ensureVanillaAssets / downloadVanillaAssets /
    getVanillaItemModel, itemModel.ts 523-633) -/

structure VanillaEnv where
  cacheExists : Bool
  cacheHasEntries : Bool
  cachedVersion : Option Chars
  headOk : Bool
  fetchOk : Bool
  zipHasAssets : Bool
  itemModelFor : Chars → Option Json

structure GenConfig where
  minecraftVersion : Option Chars

/-- downloadVanillaAssets (itemModel.ts 566-607): a failed HEAD probe, a failed
download, or a zip without an assets folder are each a fatal exit (none). -/
def downloadVanillaAssets (env : VanillaEnv) : Option Unit :=
  if env.headOk then
    if env.fetchOk then
      if env.zipHasAssets then some () else none
    else none
  else none

/-- ensureVanillaAssets (itemModel.ts 523-555): a missing or empty (falsy)
minecraftVersion exits; a valid same-version cache is reused; otherwise the
snapshot is downloaded, which may itself exit. -/
def ensureVanillaAssets (cfg : GenConfig) (env : VanillaEnv) : Option Unit :=
  match cfg.minecraftVersion with
  | none => none
  | some v =>
    if v = [] then none
    else
      if env.cacheExists ∧ env.cacheHasEntries ∧ env.cachedVersion = some v then some ()
      else downloadVanillaAssets env

/-- getVanillaItemModel (itemModel.ts 616-633): only minecraft-namespaced or
bare types resolve; the items file must carry an object-typed model field.
The itemModelFor map holds the parsed items files of the snapshot keyed by
normalized type name. -/
def getVanillaItemModel (env : VanillaEnv) (ty : Chars) : Option Json :=
  if ':' ∈ ty ∧ ¬ ("minecraft:".data.isPrefixOf ty) then none
  else
    let normalized := if "minecraft:".data.isPrefixOf ty then ty.drop 10 else ty
    match env.itemModelFor normalized with
    | some parsed =>
      match jsonGet parsed "model".data with
      | some (.obj kvs) => some (.obj kvs)
      | some (.arr xs) => some (.arr xs)
      | _ => none
    | none => none

/-! ## The staging queue (library ItemModel class) -/

def ItemModel.add (queue : List ItemModelDetails) (model : ItemModelDetails) :
    List ItemModelDetails := queue ++ [model]

def ItemModel.getQueue (queue : List ItemModelDetails) : List ItemModelDetails := queue

def ItemModel.clearQueue : List ItemModelDetails := []

def ItemModel.getQueueSize (queue : List ItemModelDetails) : Nat := queue.length

/-! ## The item-model generator (itemModel.ts generate, lines 25-519) -/

/-- One discovered .smodel file: its source-relative path segments in
directory-traversal order, and its parsed content (none when unreadable or
invalid, logged and skipped at itemModel.ts 48-53). -/
structure DiskEntry where
  relSegments : List Chars
  parsed : Option ItemModelDetails

/-- The combined worklist (itemModel.ts 38-55): queued definitions first, then
the disk-discovered ones that parsed, in traversal order. -/
def worklistOf (queue : List ItemModelDetails) (disk : List DiskEntry) : List WorkItem :=
  queue.map (fun d => ⟨d, false, none⟩) ++
    disk.filterMap (fun e => e.parsed.map (fun d => (⟨d, true, some e.relSegments⟩ : WorkItem)))

structure GenerateOutput where
  worklist : List WorkItem
  queueAfter : List ItemModelDetails
  copies : List (Chars × Chars)
  modelWrites : List (Chars × Json)
  byType : List (Chars × List ModelRef)
  tableWrites : List (Chars × DispatchModel)
  summary : List (Chars × List ModelWithThreshold)

/-- Fold of the resolver over the worklist (the Promise.all fan-out at
itemModel.ts 64-167, in worklist order). -/
def resolveWorklist (readModelFile : Chars → Option Json) (sourceDir : Chars)
    (texturesBase modelsBase : Chars) :
    List WorkItem → List (Chars × List ModelRef) × List (Chars × Chars) × List (Chars × Json)
  | [] => ([], [], [])
  | w :: rest =>
    let d := processDefinition readModelFile sourceDir texturesBase modelsBase w
    let r := resolveWorklist readModelFile sourceDir texturesBase modelsBase rest
    (accumulateRefs [] (d.typedRefs ++ (r.1.flatMap (fun kv => kv.2.map (fun x => (kv.1, x))))),
     d.copies ++ r.2.1, d.modelWrites ++ r.2.2)

/-- The merge fan-out (itemModel.ts 169-178): one updateItemDefinition call per
accumulated type, each writing that type's table file. -/
def mergeByType (existingTables : Chars → Option DispatchModel) (env : VanillaEnv) :
    List (Chars × List ModelRef) →
      List (Chars × DispatchModel) × List (Chars × List ModelWithThreshold)
  | [] => ([], [])
  | (ty, refs) :: rest =>
    let u := updateItemDefinition (existingTables ty) ty refs (getVanillaItemModel env ty)
    let r := mergeByType existingTables env rest
    ((ty, u.1) :: r.1, (ty, u.2.1) :: r.2)

/-- generate (itemModel.ts 25-519): build the worklist from the queue and the
disk, return immediately when it is empty, otherwise require the vanilla
snapshot (fatal exit = none), resolve every definition, merge per type, and
clear the queue. The summary page write (index.html) carries no merge state
and is not modelled. -/
def generate (cfg : GenConfig) (env : VanillaEnv) (queue : List ItemModelDetails)
    (disk : List DiskEntry) (existingTables : Chars → Option DispatchModel)
    (readModelFile : Chars → Option Json) (packPath buildPath : Chars) :
    Option GenerateOutput :=
  let texturesBase := pathJoin buildPath "assets/supermodel/textures/item".data
  let modelsBase := pathJoin buildPath "assets/supermodel/models/item".data
  let sourceDir := pathJoin packPath "assets/supermodel/items".data
  match worklistOf queue disk with
  | [] => some ⟨[], queue, [], [], [], [], []⟩
  | w0 :: wrest =>
    let worklist := w0 :: wrest
    match ensureVanillaAssets cfg env with
    | none => none
    | some _ =>
      let resolved := resolveWorklist readModelFile sourceDir texturesBase modelsBase worklist
      let merged := mergeByType existingTables env resolved.1
      some ⟨worklist, ItemModel.clearQueue, resolved.2.1, resolved.2.2, resolved.1,
            merged.1, merged.2⟩

/-- Table files on disk after a run: the written tables override the existing
ones, every other type keeps its previous file. -/
def tablesAfter (existingTables : Chars → Option DispatchModel)
    (writes : List (Chars × DispatchModel)) : Chars → Option DispatchModel :=
  fun ty =>
    match writes.find? (fun w => w.1 == ty) with
    | some w => some w.2
    | none => existingTables ty

theorem addRefsByType_nonempty (acc : List (Chars × List ModelRef)) (ty : Chars)
    (r : ModelRef) (hacc : ∀ e ∈ acc, e.2 ≠ []) :
    ∀ e ∈ addRefsByType acc ty [r], e.2 ≠ [] := by
  intro e he
  unfold addRefsByType at he
  split at he
  · rcases List.mem_map.mp he with ⟨kv, hkv, hmap⟩
    by_cases hk : (kv.1 == ty) = true
    · rw [if_pos hk] at hmap
      subst hmap
      simp
    · rw [if_neg hk] at hmap
      subst hmap
      exact hacc kv hkv
  · rcases List.mem_append.mp he with h1 | h1
    · exact hacc e h1
    · simp only [List.mem_singleton] at h1
      subst h1
      simp

theorem accumulateRefs_nonempty :
    ∀ (pairs : List (Chars × ModelRef)) (acc : List (Chars × List ModelRef)),
      (∀ e ∈ acc, e.2 ≠ []) → ∀ e ∈ accumulateRefs acc pairs, e.2 ≠ [] := by
  intro pairs
  induction pairs with
  | nil => intro acc hacc e he; exact hacc e he
  | cons p rest ih =>
    intro acc hacc e he
    exact ih _ (addRefsByType_nonempty acc p.1 p.2 hacc) e he

theorem mergeByType_keys (ex : Chars → Option DispatchModel) (env : VanillaEnv) :
    ∀ (l : List (Chars × List ModelRef)),
      (mergeByType ex env l).1.map (·.1) = l.map (·.1) := by
  intro l
  induction l with
  | nil => rfl
  | cons p rest ih =>
    simp only [mergeByType, List.map_cons]
    rw [ih]

theorem tablesAfter_frame (ex : Chars → Option DispatchModel)
    (writes : List (Chars × DispatchModel)) (ty : Chars)
    (hnm : ty ∉ writes.map (·.1)) : tablesAfter ex writes ty = ex ty := by
  unfold tablesAfter
  have hfind : writes.find? (fun w => w.1 == ty) = none := by
    apply List.find?_eq_none.mpr
    intro w hw
    simp only [beq_iff_eq]
    intro hcontra
    exact hnm (hcontra ▸ List.mem_map_of_mem (·.1) hw)
  rw [hfind]

/-- C5: a run whose combined worklist is empty returns before requiring the
vanilla snapshot or touching any table (no copies, no model writes, no table
writes, queue left as found); a run that completes normally records at least
one resolved reference for every accumulated type, writes exactly the table
files of those types, and leaves every other type's existing table unmodified. -/
theorem untouched_tables_not_written
    (cfg : GenConfig) (env : VanillaEnv) (queue : List ItemModelDetails)
    (disk : List DiskEntry) (existingTables : Chars → Option DispatchModel)
    (readModelFile : Chars → Option Json) (packPath buildPath : Chars) :
    (worklistOf queue disk = [] →
      generate cfg env queue disk existingTables readModelFile packPath buildPath =
        some ⟨[], queue, [], [], [], [], []⟩) ∧
    (∀ out, generate cfg env queue disk existingTables readModelFile packPath buildPath =
        some out →
      (∀ e ∈ out.byType, e.2 ≠ []) ∧
      out.tableWrites.map (·.1) = out.byType.map (·.1) ∧
      (∀ ty, ty ∉ out.byType.map (·.1) →
        tablesAfter existingTables out.tableWrites ty = existingTables ty)) := by
  constructor
  · intro hempty
    unfold generate
    rw [hempty]
  · intro out hout
    unfold generate at hout
    cases hwl : worklistOf queue disk with
    | nil =>
      rw [hwl] at hout
      injection hout with hout
      subst hout
      refine ⟨by intro e he; simp at he, rfl, ?_⟩
      intro ty _
      exact tablesAfter_frame existingTables [] ty (by simp)
    | cons w0 wrest =>
      rw [hwl] at hout
      cases hv : ensureVanillaAssets cfg env with
      | none => rw [hv] at hout; exact absurd hout (by simp)
      | some u =>
        rw [hv] at hout
        injection hout with hout
        subst hout
        simp only
        refine ⟨?_, ?_, ?_⟩
        · intro e he
          exact accumulateRefs_nonempty _ _ (by intro x hx; exact absurd hx (by simp)) e he
        · exact mergeByType_keys existingTables env _
        · intro ty hty
          apply tablesAfter_frame
          rw [mergeByType_keys existingTables env]
          exact hty

/-- Witness for untouched_tables_not_written: the empty run writes nothing, and
the red_apple run writes only the apple table, leaving the carrot table as it
was. -/
theorem untouched_tables_not_written_witness :
    (generate ⟨some "1.21.11".data⟩
        ⟨true, true, some "1.21.11".data, true, true, true, fun _ => none⟩
        [] [] (fun _ => none) (fun _ => none) [] [] =
      some ⟨[], [], [], [], [], [], []⟩) ∧
    ((generate ⟨some "1.21.11".data⟩
        ⟨true, true, some "1.21.11".data, true, true, true, fun _ => none⟩
        []
        [⟨["red_apple.smodel".data],
          some { type := some "apple".data, texture := some "red_apple.png".data }⟩]
        (fun _ => some (defaultDispatchDefinition "carrot".data none))
        (fun _ => none) [] []).map
      (fun out => tablesAfter (fun _ => some (defaultDispatchDefinition "carrot".data none))
        out.tableWrites "carrot".data) =
      some (some (defaultDispatchDefinition "carrot".data none))) := by
  constructor
  · exact (untouched_tables_not_written _ _ _ _ _ _ _ _).1 rfl
  · obtain ⟨out, hout⟩ : ∃ out, generate ⟨some "1.21.11".data⟩
        ⟨true, true, some "1.21.11".data, true, true, true, fun _ => none⟩
        []
        [⟨["red_apple.smodel".data],
          some { type := some "apple".data, texture := some "red_apple.png".data }⟩]
        (fun _ => some (defaultDispatchDefinition "carrot".data none))
        (fun _ => none) [] [] = some out := ⟨_, rfl⟩
    have h := ((untouched_tables_not_written _ _ _ _ _ _ _ _).2 out hout).2.2
      "carrot".data (by rw [show out.byType = [("apple".data,
        [⟨none, "red_apple".data, "red_apple".data, none⟩])] from by
          rw [show out = _ from Option.some.inj hout.symm]; rfl]; decide)
    rw [hout, Option.map, h]

theorem foldl_ItemModel_add (adds : List ItemModelDetails) :
    ∀ (acc : List ItemModelDetails), adds.foldl ItemModel.add acc = acc ++ adds := by
  induction adds with
  | nil => intro acc; simp
  | cons d rest ih =>
    intro acc
    simp only [List.foldl_cons, ih, ItemModel.add]
    simp

/-- C6: the queue built by a sequence of ItemModel.add calls holds exactly the
added definitions in insertion order; the generator's combined worklist is
those queued definitions first, then the successfully parsed disk-discovered
definitions in traversal order; and a normally completing run hands the next
run an emptied queue (getQueueSize 0 — in the early-return case because the
empty worklist forces an already empty queue). -/
theorem worklist_order_and_queue_drained
    (cfg : GenConfig) (env : VanillaEnv) (adds : List ItemModelDetails)
    (disk : List DiskEntry) (existingTables : Chars → Option DispatchModel)
    (readModelFile : Chars → Option Json) (packPath buildPath : Chars) :
    (adds.foldl ItemModel.add [] = adds) ∧
    (worklistOf (adds.foldl ItemModel.add []) disk =
      adds.map (fun d => ⟨d, false, none⟩) ++
        disk.filterMap (fun e => e.parsed.map
          (fun d => (⟨d, true, some e.relSegments⟩ : WorkItem)))) ∧
    (∀ out, generate cfg env (adds.foldl ItemModel.add []) disk existingTables
        readModelFile packPath buildPath = some out →
      out.worklist = worklistOf adds disk ∧
      ItemModel.getQueueSize out.queueAfter = 0) := by
  have hq : adds.foldl ItemModel.add [] = adds := by
    rw [foldl_ItemModel_add]; simp
  refine ⟨hq, by rw [hq]; rfl, ?_⟩
  intro out hout
  rw [hq] at hout
  unfold generate at hout
  cases hwl : worklistOf adds disk with
  | nil =>
    rw [hwl] at hout
    injection hout with hout
    subst hout
    have hqe : adds = [] := by
      unfold worklistOf at hwl
      rcases List.append_eq_nil.mp hwl with ⟨h1, _⟩
      exact List.map_eq_nil_iff.mp h1
    subst hqe
    exact ⟨rfl, rfl⟩
  | cons w0 wrest =>
    rw [hwl] at hout
    cases hv : ensureVanillaAssets cfg env with
    | none => rw [hv] at hout; exact absurd hout (by simp)
    | some u =>
      rw [hv] at hout
      injection hout with hout
      subst hout
      exact ⟨rfl, rfl⟩

/-- Witness for worklist_order_and_queue_drained: one queued add and one disk
file; the worklist is the queued definition then the disk definition, and the
queue after the run is empty. -/
theorem worklist_order_and_queue_drained_witness :
    ([{ type := some "carrot".data, texture := some "gold_carrot.png".data }].foldl
        ItemModel.add [] =
      [({ type := some "carrot".data, texture := some "gold_carrot.png".data } :
        ItemModelDetails)]) ∧
    ((generate ⟨some "1.21.11".data⟩
        ⟨true, true, some "1.21.11".data, true, true, true, fun _ => none⟩
        [{ type := some "carrot".data, texture := some "gold_carrot.png".data }]
        [⟨["red_apple.smodel".data],
          some { type := some "apple".data, texture := some "red_apple.png".data }⟩]
        (fun _ => none) (fun _ => none) [] []).map
      (fun out => (out.worklist.map (fun w => w.isFromFile),
        ItemModel.getQueueSize out.queueAfter)) = some ([false, true], 0)) := by
  have h := worklist_order_and_queue_drained ⟨some "1.21.11".data⟩
    ⟨true, true, some "1.21.11".data, true, true, true, fun _ => none⟩
    [{ type := some "carrot".data, texture := some "gold_carrot.png".data }]
    [⟨["red_apple.smodel".data],
      some { type := some "apple".data, texture := some "red_apple.png".data }⟩]
    (fun _ => none) (fun _ => none) [] []
  refine ⟨h.1, ?_⟩
  obtain ⟨out, hout⟩ : ∃ out, generate ⟨some "1.21.11".data⟩
      ⟨true, true, some "1.21.11".data, true, true, true, fun _ => none⟩
      [{ type := some "carrot".data, texture := some "gold_carrot.png".data }]
      [⟨["red_apple.smodel".data],
        some { type := some "apple".data, texture := some "red_apple.png".data }⟩]
      (fun _ => none) (fun _ => none) [] [] = some out := ⟨_, rfl⟩
  have h2 := h.2.2 out (by rw [← h.1] at hout; exact hout)
  rw [hout, Option.map]
  have hsize : ItemModel.getQueueSize out.queueAfter = 0 := h2.2
  have hwl : out.worklist = worklistOf
      [{ type := some "carrot".data, texture := some "gold_carrot.png".data }]
      [⟨["red_apple.smodel".data],
        some { type := some "apple".data, texture := some "red_apple.png".data }⟩] := h2.1
  rw [show (out.worklist.map (fun w => w.isFromFile), ItemModel.getQueueSize out.queueAfter) =
    ([false, true], 0) from by rw [hsize, hwl]; rfl]

/-- C10: whenever the worklist is non-empty and the vanilla reference snapshot
cannot be obtained — the configured minecraftVersion is missing or empty, or no
valid same-version cache exists and the download fails at the HEAD probe, the
fetch, or the extracted layout check — the generator run is a fatal process
exit, regardless of the state of the existing dispatch tables. -/
theorem vanilla_unavailable_is_fatal
    (cfg : GenConfig) (env : VanillaEnv) (queue : List ItemModelDetails)
    (disk : List DiskEntry) (existingTables : Chars → Option DispatchModel)
    (readModelFile : Chars → Option Json) (packPath buildPath : Chars)
    (hne : worklistOf queue disk ≠ [])
    (hfail : cfg.minecraftVersion = none ∨ cfg.minecraftVersion = some [] ∨
      (¬ (env.cacheExists = true ∧ env.cacheHasEntries = true ∧
            env.cachedVersion = cfg.minecraftVersion) ∧
        (env.headOk = false ∨ env.fetchOk = false ∨ env.zipHasAssets = false))) :
    generate cfg env queue disk existingTables readModelFile packPath buildPath = none := by
  have hv : ensureVanillaAssets cfg env = none := by
    unfold ensureVanillaAssets
    rcases hfail with h | h | ⟨hcache, hdl⟩
    · rw [h]
    · rw [h]; simp
    · cases hver : cfg.minecraftVersion with
      | none => rfl
      | some v =>
        simp only
        split
        · rfl
        · rw [if_neg (by rw [hver] at hcache; simpa using hcache)]
          unfold downloadVanillaAssets
          rcases hdl with h1 | h1 | h1 <;> simp [h1]
  unfold generate
  cases hwl : worklistOf queue disk with
  | nil => exact absurd hwl hne
  | cons w0 wrest => rw [hv]

/-- Witness for vanilla_unavailable_is_fatal: a one-definition worklist with a
stale cache and a failing download exits even though the apple table already
exists and is structurally valid. -/
theorem vanilla_unavailable_is_fatal_witness :
    (worklistOf []
        [⟨["red_apple.smodel".data],
          some { type := some "apple".data, texture := some "red_apple.png".data }⟩] ≠ []) ∧
    generate ⟨some "1.21.11".data⟩
        ⟨true, true, some "1.20.1".data, false, true, true, fun _ => none⟩
        []
        [⟨["red_apple.smodel".data],
          some { type := some "apple".data, texture := some "red_apple.png".data }⟩]
        (fun _ => some (defaultDispatchDefinition "apple".data none))
        (fun _ => none) [] [] = none := by
  constructor
  · intro hcontra
    exact absurd hcontra (by unfold worklistOf; simp)
  · exact vanilla_unavailable_is_fatal _ _ _ _ _ _ _ _
      (by unfold worklistOf; simp)
      (Or.inr (Or.inr ⟨by simp, Or.inl rfl⟩))

/-- C9: processing the single file-sourced definition with type apple and
texture red_apple.png and no model field copies the texture to
assets/supermodel/textures/item/red_apple/red_apple.png, writes the
synthesized model with parent minecraft:item/generated and textures
layer0 = supermodel:item/red_apple/red_apple at
assets/supermodel/models/item/red_apple/red_apple.json, and inserts into the
apple dispatch table an entry at threshold 32767 + (hash mod 10,000,000)
of red_apple/red_apple, plus a fallback-echo entry at threshold + 1, that
slot being unused. -/
theorem scenario_red_apple_default_model :
    generate ⟨some "1.21.11".data⟩
        ⟨true, true, some "1.21.11".data, true, true, true, fun _ => none⟩
        []
        [⟨["red_apple.smodel".data],
          some { type := some "apple".data, texture := some "red_apple.png".data }⟩]
        (fun _ => none) (fun _ => none) [] [] =
      some ⟨[⟨{ type := some "apple".data, texture := some "red_apple.png".data },
              true, some ["red_apple.smodel".data]⟩],
            [],
            [("assets/supermodel/items/red_apple.png".data,
              "assets/supermodel/textures/item/red_apple/red_apple.png".data)],
            [("assets/supermodel/models/item/red_apple/red_apple.json".data,
              .obj [("parent".data, .str "minecraft:item/generated".data),
                    ("textures".data,
                     .obj [("layer0".data,
                            .str "supermodel:item/red_apple/red_apple".data)])])],
            [("apple".data, [⟨none, "red_apple".data, "red_apple".data, none⟩])],
            [("apple".data,
              { kind := "range_dispatch".data
                property := "custom_model_data".data
                fallback := .obj [("type".data, .str "model".data),
                                  ("model".data, .str "item/apple".data)]
                index := 0
                entries :=
                  [⟨((32767 + hashString "red_apple/red_apple".data % 10000000 : Nat) : Int),
                    stringify (.obj [("type".data, .str "model".data),
                      ("model".data, .str "supermodel:item/red_apple/red_apple".data)])⟩,
                   ⟨((32767 + hashString "red_apple/red_apple".data % 10000000 : Nat) : Int) + 1,
                    stringify (.obj [("type".data, .str "model".data),
                      ("model".data, .str "item/apple".data)])⟩] })],
            [("apple".data,
              [⟨none, "red_apple".data, "red_apple".data,
                ((32767 + hashString "red_apple/red_apple".data % 10000000 : Nat) : Int)⟩])]⟩ :=
  rfl

/-! ## Structural account of the placeholder substitution (C8)

    The text-level substitution is related to a structural tree substitution.
    A placeholder token is a dollar-led name; a template is well-formed for a
    replacement list when tokens occur only as whole string values (keys and
    all other strings are dollar-free); replacement values are dollar-free so
    the spliced text can create no new occurrence of a later pattern (and,
    being free of the dollar character, no regex special replacement pattern
    either). -/

def dollarFree (s : Chars) : Bool := s.all (· ≠ '$')

def quoteFree (s : Chars) : Bool := s.all (· ≠ '"')

/-- Characters serialized verbatim by JSON.stringify (no escaping). -/
def jsonSafe (s : Chars) : Bool := s.all (fun c => c ≠ '"' ∧ c ≠ '\\' ∧ 32 ≤ c.toNat)

/-- A well-formed placeholder token: a dollar, then a dollar-free, quote-free
name of verbatim-serializable characters. -/
def tokenOK : Chars → Bool
  | '$' :: rest => dollarFree rest && jsonSafe ('$' :: rest)
  | _ => false

mutual

/-- All strings and keys of a tree are dollar-free (the condition under which
its serialization contains no dollar character). -/
def cleanJson : Json → Bool
  | .null => true
  | .bool _ => true
  | .num _ => true
  | .str s => dollarFree s
  | .arr xs => cleanArr xs
  | .obj kvs => cleanObj kvs

def cleanArr : List Json → Bool
  | [] => true
  | x :: rest => cleanJson x && cleanArr rest

def cleanObj : List (Chars × Json) → Bool
  | [] => true
  | kv :: rest => dollarFree kv.1 && cleanJson kv.2 && cleanObj rest

end

def isTokenKey (reps : List (Chars × RepVal)) (s : Chars) : Bool :=
  reps.any (fun kv => kv.1 == s)

mutual

/-- The claim's precondition: every string value is dollar-free or is exactly
one of the replacement tokens (so tokens occur only as whole quoted string
values), and every key is dollar-free. -/
def templateOK (reps : List (Chars × RepVal)) : Json → Bool
  | .null => true
  | .bool _ => true
  | .num _ => true
  | .str s => dollarFree s || isTokenKey reps s
  | .arr xs => templateArrOK reps xs
  | .obj kvs => templateObjOK reps kvs

def templateArrOK (reps : List (Chars × RepVal)) : List Json → Bool
  | [] => true
  | x :: rest => templateOK reps x && templateArrOK reps rest

def templateObjOK (reps : List (Chars × RepVal)) : List (Chars × Json) → Bool
  | [] => true
  | kv :: rest => dollarFree kv.1 && templateOK reps kv.2 && templateObjOK reps rest

end

/-- Replacement values that splice cleanly: a string value with no dollar and
no character needing escape; a tree value with dollar-free strings. -/
def repClean : RepVal → Bool
  | .strV v => dollarFree v && jsonSafe v
  | .jsonV j => cleanJson j

def repsOK (reps : List (Chars × RepVal)) : Bool :=
  reps.all (fun kv => tokenOK kv.1 && repClean kv.2)

def lookupRep (reps : List (Chars × RepVal)) (s : Chars) : Option RepVal :=
  (reps.find? (fun kv => kv.1 == s)).map (·.2)

def repJson : RepVal → Json
  | .strV v => .str v
  | .jsonV j => j

mutual

/-- The structural substitution the claim describes: each string leaf equal to
a token becomes the corresponding concrete value (a string value re-quoted, a
tree value spliced as a subtree); keys and everything else are unchanged. -/
def substTree (reps : List (Chars × RepVal)) : Json → Json
  | .null => .null
  | .bool b => .bool b
  | .num n => .num n
  | .str s =>
    match lookupRep reps s with
    | some r => repJson r
    | none => .str s
  | .arr xs => .arr (substTreeArr reps xs)
  | .obj kvs => .obj (substTreeObj reps kvs)

def substTreeArr (reps : List (Chars × RepVal)) : List Json → List Json
  | [] => []
  | x :: rest => substTree reps x :: substTreeArr reps rest

def substTreeObj (reps : List (Chars × RepVal)) :
    List (Chars × Json) → List (Chars × Json)
  | [] => []
  | kv :: rest => (kv.1, substTree reps kv.2) :: substTreeObj reps rest

end

/-! ### Serialized-text fragments

    The serialization of a well-formed template splits into dollar-free plain
    fragments and quoted token leaves; the textual replacement acts on the
    leaves only. -/

inductive Frag where
  | plain (p : Chars)
  | leaf (tok : Chars)

def fragChars : Frag → Chars
  | .plain p => p
  | .leaf tok => '"' :: tok ++ ['"']

def glue : List Frag → Chars
  | [] => []
  | f :: rest => fragChars f ++ glue rest

def fragOK (keys : List Chars) : Frag → Bool
  | .plain p => dollarFree p
  | .leaf tok => keys.any (· == tok)

mutual

def fragify (reps : List (Chars × RepVal)) : Json → List Frag
  | .null => [.plain (stringify .null)]
  | .bool b => [.plain (stringify (.bool b))]
  | .num n => [.plain (intChars n)]
  | .str s => if isTokenKey reps s then [.leaf s] else [.plain (quoteStr s)]
  | .arr xs => .plain ['['] :: (fragifyArr reps xs ++ [.plain [']']])
  | .obj kvs => .plain ['{'] :: (fragifyObj reps kvs ++ [.plain ['}']])

def fragifyArr (reps : List (Chars × RepVal)) : List Json → List Frag
  | [] => []
  | [x] => fragify reps x
  | x :: y :: rest => fragify reps x ++ .plain [','] :: fragifyArr reps (y :: rest)

def fragifyObj (reps : List (Chars × RepVal)) : List (Chars × Json) → List Frag
  | [] => []
  | [kv] => .plain (quoteStr kv.1 ++ [':']) :: fragify reps kv.2
  | kv :: kv2 :: rest =>
    .plain (quoteStr kv.1 ++ [':']) :: fragify reps kv.2 ++
      .plain [','] :: fragifyObj reps (kv2 :: rest)

end

/-- Substitution of one pattern at the fragment level. -/
def fragSubst1 (k : Chars) (v : RepVal) : Frag → Frag
  | .plain p => .plain p
  | .leaf tok => if tok == k then .plain (repChars v) else .leaf tok

/-- All patterns folded over one fragment, in replacement-list order. -/
def fragSubstAll (reps : List (Chars × RepVal)) (f : Frag) : Frag :=
  reps.foldl (fun f kv => fragSubst1 kv.1 kv.2 f) f

/-- The string-level fold of applyVariableSubstitution, starting from an
arbitrary serialized text. -/
def applyRepsStr (reps : List (Chars × RepVal)) (s : Chars) : Chars :=
  reps.foldl (fun s kv => replaceAll ('"' :: kv.1 ++ ['"']) (repChars kv.2) s) s

theorem dollarFree_append (a b : Chars) :
    dollarFree (a ++ b) = (dollarFree a && dollarFree b) := List.all_append

theorem dollarFree_mem {s : Chars} (h : dollarFree s = true) {c : Char} (hc : c ∈ s) :
    c ≠ '$' := by
  have := List.all_eq_true.mp h c hc
  simpa using this

theorem tokenOK_shape {t : Chars} (h : tokenOK t = true) :
    ∃ rest, t = '$' :: rest ∧ dollarFree rest = true ∧ jsonSafe ('$' :: rest) = true := by
  match t with
  | [] => simp [tokenOK] at h
  | c :: rest =>
    by_cases hc : c = '$'
    · subst hc
      simp only [tokenOK, Bool.and_eq_true] at h
      exact ⟨rest, rfl, h.1, h.2⟩
    · exfalso
      unfold tokenOK at h
      split at h
      · rename_i heq
        injection heq with h1 _
        exact hc h1
      · exact absurd h (by simp)

theorem jsonSafe_quoteFree {t : Chars} (h : jsonSafe t = true) : quoteFree t = true := by
  apply List.all_eq_true.mpr
  intro c hc
  have := List.all_eq_true.mp h c hc
  simp only [decide_eq_true_eq] at this
  simpa using this.1

theorem tokenOK_quoteFree {t : Chars} (h : tokenOK t = true) : quoteFree t = true := by
  obtain ⟨rest, ht, _, hsafe⟩ := tokenOK_shape h
  subst ht
  exact jsonSafe_quoteFree hsafe

/-- Equation: replacing at an exact pattern occurrence consumes it. -/
theorem replaceAll_match (pat rep : Chars) (hpat : pat ≠ []) (s : Chars) :
    replaceAll pat rep (pat ++ s) = rep ++ replaceAll pat rep s := by
  match pat, hpat with
  | a :: pt, _ =>
    rw [show (a :: pt) ++ s = a :: (pt ++ s) from rfl, replaceAll]
    rw [dif_pos ⟨by simp, List.isPrefixOf_iff_prefix.mpr ⟨s, by simp⟩⟩]
    congr 1
    rw [show a :: (pt ++ s) = (a :: pt) ++ s from rfl, List.drop_left]

/-- Equation: a position where no occurrence starts is copied unchanged. -/
theorem replaceAll_skip (pat rep : Chars) :
    ∀ (k : Nat) (s : Chars), (∀ i < k, ¬ pat <+: s.drop i) →
      replaceAll pat rep s = s.take k ++ replaceAll pat rep (s.drop k) := by
  intro k
  induction k with
  | zero => intro s _; simp
  | succ k ih =>
    intro s hno
    match s with
    | [] => simp [replaceAll]
    | c :: rest =>
      have h0 : ¬ pat <+: (c :: rest) := by
        have := hno 0 (Nat.succ_pos k)
        simpa using this
      rw [replaceAll, dif_neg (fun hcon => h0 (List.isPrefixOf_iff_prefix.mp hcon.2))]
      have hrest : ∀ i < k, ¬ pat <+: rest.drop i := by
        intro i hi
        have := hno (i + 1) (by omega)
        simpa [List.drop_succ_cons] using this
      rw [ih rest hrest]
      simp [List.take_succ_cons, List.drop_succ_cons]

/-- A prefix agrees with the text at index 1; a mismatch there rules it out. -/
theorem not_prefix_of_ne_at1 (pat u : Chars) (hlen : 2 ≤ pat.length)
    (hne : pat[1]? ≠ u[1]?) : ¬ pat <+: u := by
  intro hpre
  obtain ⟨t, ht⟩ := hpre
  apply hne
  rw [← ht, List.getElem?_append]
  simp [show (1 : Nat) < pat.length from by omega]

theorem not_prefix_quote_append :
    ∀ (k tok s : Chars), k ≠ tok → quoteFree k = true → quoteFree tok = true →
      ¬ (k ++ ['"'] <+: tok ++ '"' :: s) := by
  intro k
  induction k with
  | nil =>
    intro tok s hne _ htok hpre
    match tok with
    | [] => exact hne rfl
    | b :: tok2 =>
      rw [List.nil_append] at hpre
      rcases List.cons_prefix_cons.mp hpre with ⟨hb, _⟩
      have : b ≠ '"' := by
        have := List.all_eq_true.mp htok b (List.mem_cons_self _ _)
        simpa using this
      exact this hb.symm
  | cons a k2 ih =>
    intro tok s hne hk htok hpre
    match tok with
    | [] =>
      rcases List.cons_prefix_cons.mp hpre with ⟨ha, _⟩
      have : a ≠ '"' := by
        have := List.all_eq_true.mp hk a (List.mem_cons_self _ _)
        simpa using this
      exact this ha
    | b :: tok2 =>
      rcases List.cons_prefix_cons.mp hpre with ⟨hab, hpre2⟩
      subst hab
      have hk2 : quoteFree k2 = true := by
        apply List.all_eq_true.mpr
        intro c hc
        exact List.all_eq_true.mp hk c (List.mem_cons_of_mem _ hc)
      have htok2 : quoteFree tok2 = true := by
        apply List.all_eq_true.mpr
        intro c hc
        exact List.all_eq_true.mp htok c (List.mem_cons_of_mem _ hc)
      exact ih tok2 s (fun hcon => hne (by rw [hcon])) hk2 htok2 hpre2

/-- A pattern for token k never matches at the quoted leaf of a different
token. -/
theorem pat_not_prefix_leaf (k tok s : Chars) (hk : tokenOK k = true)
    (htok : tokenOK tok = true) (hne : k ≠ tok) :
    ¬ ('"' :: k ++ ['"']) <+: (('"' :: tok ++ ['"']) ++ s) := by
  intro hpre
  rw [show ('"' :: tok ++ ['"']) ++ s = '"' :: (tok ++ '"' :: s) from by simp] at hpre
  rcases List.cons_prefix_cons.mp hpre with ⟨_, hpre2⟩
  exact not_prefix_quote_append k (tok) s hne (tokenOK_quoteFree hk) (tokenOK_quoteFree htok)
    hpre2

theorem glue_head_ne_dollar (keys : List Chars) (hkeys : ∀ t ∈ keys, tokenOK t = true) :
    ∀ (fs : List Frag), (∀ f ∈ fs, fragOK keys f = true) →
      ∀ c, (glue fs)[0]? = some c → c ≠ '$' := by
  intro fs
  induction fs with
  | nil => intro _ c hc; simp [glue] at hc
  | cons f rest ih =>
    intro hwf c hc
    match f with
    | .plain p =>
      match p with
      | [] =>
        exact ih (fun g hg => hwf g (List.mem_cons_of_mem _ hg)) c (by simpa [glue, fragChars] using hc)
      | a :: p2 =>
        simp only [glue, fragChars, List.cons_append, List.getElem?_cons_zero] at hc
        injection hc with hc
        subst hc
        exact dollarFree_mem (hwf (.plain (a :: p2)) (List.mem_cons_self _ _))
          (List.mem_cons_self _ _)
    | .leaf tok =>
      simp only [glue, fragChars, List.cons_append, List.getElem?_cons_zero] at hc
      injection hc with hc
      subst hc
      decide

theorem no_occ_in_plain (pat : Chars) (hpat1 : pat[1]? = some '$')
    (hlen : 2 ≤ pat.length) (p tail : Chars) (hp : dollarFree p = true)
    (htail : ∀ c, tail[0]? = some c → c ≠ '$') :
    ∀ i < p.length, ¬ pat <+: (p ++ tail).drop i := by
  intro i hi
  apply not_prefix_of_ne_at1 _ _ hlen
  rw [hpat1, List.getElem?_drop]
  rcases Nat.lt_or_ge (i + 1) p.length with hlt | hge
  · rw [List.getElem?_append]
    rw [if_pos hlt]
    cases hval : p[i + 1]? with
    | none => simp
    | some c =>
      have : c ≠ '$' := dollarFree_mem hp (List.getElem?_mem hval)
      simp [this.symm]
  · have heq : i + 1 = p.length := by omega
    rw [List.getElem?_append, if_neg (by omega), heq]
    simp only [Nat.sub_self]
    cases hval : tail[0]? with
    | none => simp
    | some c =>
      have : c ≠ '$' := htail c hval
      simp [this.symm]

theorem token_tail_ne_dollar {tok : Chars} (htok : tokenOK tok = true) :
    ∀ i, 1 ≤ i → tok[i]? ≠ some '$' := by
  obtain ⟨rest, ht, hdf, _⟩ := tokenOK_shape htok
  subst ht
  intro i h1 hcon
  match i, h1 with
  | Nat.succ j, _ =>
    rw [List.getElem?_cons_succ] at hcon
    exact dollarFree_mem hdf (List.getElem?_mem hcon) rfl

theorem no_occ_in_leaf_tail (pat : Chars) (hpat1 : pat[1]? = some '$')
    (hlen : 2 ≤ pat.length) (tok tail : Chars) (htok : tokenOK tok = true)
    (htail : ∀ c, tail[0]? = some c → c ≠ '$') :
    ∀ i, 1 ≤ i → i < tok.length + 2 →
      ¬ pat <+: ((('"' :: tok ++ ['"']) ++ tail).drop i) := by
  intro i h1 h2
  apply not_prefix_of_ne_at1 _ _ hlen
  rw [hpat1, List.getElem?_drop]
  have hleaflen : ('"' :: tok ++ ['"']).length = tok.length + 2 := by simp
  rcases Nat.lt_or_ge (i + 1) (tok.length + 2) with hlt | hge
  · rw [List.getElem?_append, if_pos (by omega)]
    rw [show ('"' :: tok ++ ['"'])[i + 1]? = (tok ++ ['"'])[i]? from by
      rw [show ('"' :: tok ++ ['"']) = '"' :: (tok ++ ['"']) from rfl,
        List.getElem?_cons_succ]]
    rcases Nat.lt_or_ge i tok.length with hi | hi
    · rw [List.getElem?_append, if_pos hi]
      have := token_tail_ne_dollar htok i h1
      intro hcon
      exact this hcon.symm
    · have : i = tok.length := by omega
      subst this
      rw [List.getElem?_append, if_neg (by omega)]
      simp
  · have heq : i + 1 = tok.length + 2 := by omega
    rw [List.getElem?_append, if_neg (by omega)]
    rw [show i + 1 - ('"' :: tok ++ ['"']).length = 0 from by omega]
    cases hval : tail[0]? with
    | none => simp
    | some c =>
      have : c ≠ '$' := htail c hval
      simp [this.symm]

theorem pat_at1 {k : Chars} (hk : tokenOK k = true) :
    ('"' :: k ++ ['"'])[1]? = some '$' := by
  obtain ⟨rest, ht, _, _⟩ := tokenOK_shape hk
  subst ht
  simp

theorem pat_len {k : Chars} : 2 ≤ ('"' :: k ++ ['"']).length := by simp

/-- The crux: over a well-formed fragment list, the textual global replacement
of one quoted token pattern rewrites exactly the matching leaves. -/
theorem replaceAll_glue_frags (k : Chars) (v : RepVal) (keys : List Chars)
    (hkeys : ∀ t ∈ keys, tokenOK t = true) (hk : tokenOK k = true) :
    ∀ (fs : List Frag), (∀ f ∈ fs, fragOK keys f = true) →
      replaceAll ('"' :: k ++ ['"']) (repChars v) (glue fs) =
        glue (fs.map (fragSubst1 k v)) := by
  intro fs
  induction fs with
  | nil => simp [glue, replaceAll]
  | cons f rest ih =>
    intro hwf
    have hwfrest : ∀ g ∈ rest, fragOK keys g = true :=
      fun g hg => hwf g (List.mem_cons_of_mem _ hg)
    have htail : ∀ c, (glue rest)[0]? = some c → c ≠ '$' :=
      glue_head_ne_dollar keys hkeys rest hwfrest
    match f with
    | .plain p =>
      have hp : dollarFree p = true := hwf (.plain p) (List.mem_cons_self _ _)
      have hskip := replaceAll_skip ('"' :: k ++ ['"']) (repChars v) p.length
        (p ++ glue rest)
        (no_occ_in_plain _ (pat_at1 hk) pat_len p (glue rest) hp htail)
      rw [show glue (.plain p :: rest) = p ++ glue rest from rfl, hskip,
        List.take_left, List.drop_left, ih hwfrest]
      rfl
    | .leaf tok =>
      have htokmem : tok ∈ keys := by
        have := hwf (.leaf tok) (List.mem_cons_self _ _)
        simp only [fragOK, List.any_eq_true, beq_iff_eq] at this
        obtain ⟨t, htk, heq⟩ := this
        exact heq ▸ htk
      have htok : tokenOK tok = true := hkeys tok htokmem
      by_cases hne : tok = k
      · subst hne
        rw [show glue (.leaf tok :: rest) = ('"' :: tok ++ ['"']) ++ glue rest from rfl]
        rw [replaceAll_match _ _ (by simp) _, ih hwfrest]
        simp [glue, fragSubst1, fragChars]
      · have hnocc : ∀ i < ('"' :: tok ++ ['"']).length,
            ¬ ('"' :: k ++ ['"']) <+: ((('"' :: tok ++ ['"']) ++ glue rest).drop i) := by
          intro i hi
          match i with
          | 0 =>
            rw [List.drop_zero]
            exact pat_not_prefix_leaf k tok (glue rest) hk htok
              (fun hcon => hne hcon.symm)
          | Nat.succ j =>
            apply no_occ_in_leaf_tail _ (pat_at1 hk) pat_len tok (glue rest) htok htail
            · omega
            · simpa using hi
        have hskip := replaceAll_skip ('"' :: k ++ ['"']) (repChars v)
          ('"' :: tok ++ ['"']).length (('"' :: tok ++ ['"']) ++ glue rest) hnocc
        rw [show glue (.leaf tok :: rest) = ('"' :: tok ++ ['"']) ++ glue rest from rfl,
          hskip, List.take_left, List.drop_left, ih hwfrest]
        simp [glue, fragSubst1, fragChars, hne]

theorem digitChar_ne_dollar {d : Nat} (hd : d < 16) : Nat.digitChar d ≠ '$' := by
  interval_cases d <;> decide

theorem natCharsAux_dollarFree :
    ∀ (n : Nat) (acc : Chars), dollarFree acc = true →
      dollarFree (natCharsAux n acc) = true := by
  intro n
  induction n using Nat.strong_induction_on with
  | _ n ih =>
    intro acc hacc
    match n with
    | 0 => simpa [natCharsAux] using hacc
    | m + 1 =>
      rw [natCharsAux]
      apply ih ((m + 1) / 10) (Nat.div_lt_self (Nat.succ_pos m) (by norm_num))
      simp only [dollarFree, List.all_cons, Bool.and_eq_true]
      refine ⟨?_, hacc⟩
      simpa using digitChar_ne_dollar (d := (m + 1) % 10)
        (lt_trans (Nat.mod_lt _ (by norm_num)) (by norm_num))

theorem natChars_dollarFree (n : Nat) : dollarFree (natChars n) = true := by
  unfold natChars
  split
  · decide
  · exact natCharsAux_dollarFree n [] (by decide)

theorem intChars_dollarFree (n : Int) : dollarFree (intChars n) = true := by
  unfold intChars
  split
  · simp only [dollarFree, List.all_cons, Bool.and_eq_true]
    exact ⟨by decide, natChars_dollarFree _⟩
  · exact natChars_dollarFree _

theorem escChar_dollarFree {c : Char} (hc : c ≠ '$') : dollarFree (escChar c) = true := by
  unfold escChar
  split
  · decide
  · split
    · decide
    · split
      · decide
      · split
        · decide
        · split
          · decide
          · split
            · decide
            · split
              · decide
              · split
                · rename_i h32
                  simp only [dollarFree, List.all_cons, Bool.and_eq_true]
                  refine ⟨by decide, by decide, by decide, by decide, ?_, ?_, by simp⟩
                  · simpa using digitChar_ne_dollar
                      (d := c.toNat / 16) (by omega)
                  · simpa using digitChar_ne_dollar
                      (d := c.toNat % 16) (Nat.mod_lt _ (by norm_num))
                · simpa [dollarFree] using hc

theorem dollarFree_cons {c : Char} {s : Chars} (hc : c ≠ '$') (hs : dollarFree s = true) :
    dollarFree (c :: s) = true := by
  simp only [dollarFree, List.all_cons, Bool.and_eq_true]
  exact ⟨by simpa using hc, hs⟩

theorem dollarFree_app {a b : Chars} (ha : dollarFree a = true) (hb : dollarFree b = true) :
    dollarFree (a ++ b) = true := by
  rw [dollarFree_append, ha, hb]
  rfl

theorem escString_dollarFree {s : Chars} (hs : dollarFree s = true) :
    dollarFree (escString s) = true := by
  induction s with
  | nil => decide
  | cons c rest ih =>
    simp only [dollarFree, List.all_cons, Bool.and_eq_true] at hs
    rw [show escString (c :: rest) = escChar c ++ escString rest from rfl]
    exact dollarFree_app (escChar_dollarFree (by simpa using hs.1)) (ih hs.2)

theorem quoteStr_dollarFree {s : Chars} (hs : dollarFree s = true) :
    dollarFree (quoteStr s) = true := by
  unfold quoteStr
  exact dollarFree_cons (by decide) (dollarFree_app (escString_dollarFree hs) (by decide))

mutual

theorem stringify_dollarFree (j : Json) (h : cleanJson j = true) :
    dollarFree (stringify j) = true := by
  match j with
  | .null => decide
  | .bool true => decide
  | .bool false => decide
  | .num n => exact intChars_dollarFree n
  | .str s => exact quoteStr_dollarFree (by simpa [cleanJson] using h)
  | .arr xs =>
    rw [show stringify (.arr xs) = '[' :: stringifyArr xs ++ [']'] from rfl]
    exact dollarFree_cons (by decide)
      (dollarFree_app (stringifyArr_dollarFree xs (by simpa [cleanJson] using h)) (by decide))
  | .obj kvs =>
    rw [show stringify (.obj kvs) = '{' :: stringifyObj kvs ++ ['}'] from rfl]
    exact dollarFree_cons (by decide)
      (dollarFree_app (stringifyObj_dollarFree kvs (by simpa [cleanJson] using h)) (by decide))

theorem stringifyArr_dollarFree (xs : List Json) (h : cleanArr xs = true) :
    dollarFree (stringifyArr xs) = true := by
  match xs with
  | [] => decide
  | [x] =>
    rw [show stringifyArr [x] = stringify x from rfl]
    refine stringify_dollarFree x ?_
    rw [show cleanArr [x] = (cleanJson x && cleanArr []) from rfl, Bool.and_eq_true] at h
    exact h.1
  | x :: y :: rest =>
    rw [show stringifyArr (x :: y :: rest) = stringify x ++ ',' :: stringifyArr (y :: rest)
      from rfl]
    rw [show cleanArr (x :: y :: rest) = (cleanJson x && cleanArr (y :: rest)) from rfl,
      Bool.and_eq_true] at h
    exact dollarFree_app (stringify_dollarFree x h.1)
      (dollarFree_cons (by decide) (stringifyArr_dollarFree (y :: rest) h.2))

theorem stringifyObj_dollarFree (kvs : List (Chars × Json)) (h : cleanObj kvs = true) :
    dollarFree (stringifyObj kvs) = true := by
  match kvs with
  | [] => decide
  | [kv] =>
    rw [show stringifyObj [kv] = quoteStr kv.1 ++ ':' :: stringify kv.2 from rfl]
    rw [show cleanObj [kv] = (dollarFree kv.1 && cleanJson kv.2 && cleanObj []) from rfl,
      Bool.and_eq_true, Bool.and_eq_true] at h
    exact dollarFree_app (quoteStr_dollarFree h.1.1)
      (dollarFree_cons (by decide) (stringify_dollarFree kv.2 h.1.2))
  | kv :: kv2 :: rest =>
    rw [show stringifyObj (kv :: kv2 :: rest) =
      quoteStr kv.1 ++ ':' :: stringify kv.2 ++ ',' :: stringifyObj (kv2 :: rest) from rfl]
    rw [show cleanObj (kv :: kv2 :: rest) =
      (dollarFree kv.1 && cleanJson kv.2 && cleanObj (kv2 :: rest)) from rfl,
      Bool.and_eq_true, Bool.and_eq_true] at h
    exact dollarFree_app
      (dollarFree_app (quoteStr_dollarFree h.1.1)
        (dollarFree_cons (by decide) (stringify_dollarFree kv.2 h.1.2)))
      (dollarFree_cons (by decide) (stringifyObj_dollarFree (kv2 :: rest) h.2))

end

theorem repClean_dollarFree {v : RepVal} (h : repClean v = true) :
    dollarFree (repChars v) = true := by
  match v with
  | .strV s =>
    simp only [repClean, Bool.and_eq_true] at h
    exact dollarFree_cons (by decide) (dollarFree_app h.1 (by decide))
  | .jsonV j => exact stringify_dollarFree j (by simpa [repClean] using h)

theorem escChar_eq_self {c : Char} (hc : c ≠ '"' ∧ c ≠ '\\' ∧ 32 ≤ c.toNat) :
    escChar c = [c] := by
  unfold escChar
  rw [if_neg hc.1, if_neg hc.2.1]
  have h10 : c ≠ '\n' := by
    intro hcon
    subst hcon
    simp at hc
  have h9 : c ≠ '\t' := by
    intro hcon
    subst hcon
    simp at hc
  have h13 : c ≠ '\r' := by
    intro hcon
    subst hcon
    simp at hc
  rw [if_neg h10, if_neg h9, if_neg h13,
    if_neg (by omega), if_neg (by omega), if_neg (by omega)]

theorem escString_eq_self {s : Chars} (hs : jsonSafe s = true) : escString s = s := by
  induction s with
  | nil => rfl
  | cons c rest ih =>
    simp only [jsonSafe, List.all_cons, Bool.and_eq_true, decide_eq_true_eq] at hs
    rw [show escString (c :: rest) = escChar c ++ escString rest from rfl,
      escChar_eq_self hs.1]
    rw [ih (by simpa [jsonSafe] using hs.2)]
    rfl

theorem quoteStr_of_safe {s : Chars} (hs : jsonSafe s = true) :
    quoteStr s = '"' :: s ++ ['"'] := by
  unfold quoteStr
  rw [escString_eq_self hs]

theorem repsOK_token {reps : List (Chars × RepVal)} (h : repsOK reps = true) :
    ∀ kv ∈ reps, tokenOK kv.1 = true ∧ repClean kv.2 = true := by
  intro kv hkv
  have h2 : (tokenOK kv.1 && repClean kv.2) = true := by
    simpa using List.all_eq_true.mp h kv hkv
  rw [Bool.and_eq_true] at h2
  exact h2

theorem isTokenKey_tokenOK {reps : List (Chars × RepVal)} (h : repsOK reps = true)
    {s : Chars} (hs : isTokenKey reps s = true) : tokenOK s = true := by
  simp only [isTokenKey, List.any_eq_true, beq_iff_eq] at hs
  obtain ⟨kv, hkv, heq⟩ := hs
  exact heq ▸ (repsOK_token h kv hkv).1

theorem isTokenKey_false_lookup {reps : List (Chars × RepVal)} {s : Chars}
    (hs : isTokenKey reps s = false) : lookupRep reps s = none := by
  unfold lookupRep
  have hfind : reps.find? (fun kv => kv.1 == s) = none := by
    apply List.find?_eq_none.mpr
    intro kv hkv hcon
    have hany : reps.any (fun kv => kv.1 == s) = true := List.any_eq_true.mpr ⟨kv, hkv, hcon⟩
    rw [isTokenKey] at hs
    rw [hs] at hany
    exact absurd hany (by simp)
  rw [hfind]
  rfl

theorem isTokenKey_true_lookup {reps : List (Chars × RepVal)} {s : Chars}
    (hs : isTokenKey reps s = true) : ∃ v, lookupRep reps s = some v := by
  rw [isTokenKey, List.any_eq_true] at hs
  obtain ⟨kv, hkv, heq⟩ := hs
  have hsome : (reps.find? (fun kv => kv.1 == s)).isSome :=
    List.find?_isSome.mpr ⟨kv, hkv, heq⟩
  obtain ⟨kv2, hfind⟩ := Option.isSome_iff_exists.mp hsome
  exact ⟨kv2.2, by unfold lookupRep; rw [hfind]; rfl⟩

theorem glue_append (a b : List Frag) : glue (a ++ b) = glue a ++ glue b := by
  induction a with
  | nil => rfl
  | cons f rest ih =>
    rw [List.cons_append, glue, glue, ih, List.append_assoc]

theorem fragSubstAll_plain (reps : List (Chars × RepVal)) (p : Chars) :
    fragSubstAll reps (.plain p) = .plain p := by
  unfold fragSubstAll
  induction reps with
  | nil => rfl
  | cons kv rest ih =>
    simp only [List.foldl_cons]
    rw [show fragSubst1 kv.1 kv.2 (.plain p) = .plain p from rfl]
    exact ih

theorem fragSubstAll_leaf (reps : List (Chars × RepVal)) (s : Chars) :
    fragSubstAll reps (.leaf s) =
      match lookupRep reps s with
      | some v => .plain (repChars v)
      | none => .leaf s := by
  induction reps with
  | nil => rfl
  | cons kv rest ih =>
    by_cases hk : kv.1 = s
    · have h2 : lookupRep (kv :: rest) s = some kv.2 := by
        unfold lookupRep
        rw [List.find?_cons_of_pos _ (by simpa using hk)]
        rfl
      rw [h2]
      have hbeq : (s == kv.1) = true := by simp [hk]
      have h1 : fragSubstAll (kv :: rest) (Frag.leaf s) =
          fragSubstAll rest (.plain (repChars kv.2)) := by
        unfold fragSubstAll
        simp only [List.foldl_cons]
        congr 1
        simp [fragSubst1, hbeq]
      rw [h1, fragSubstAll_plain]
    · have h2 : lookupRep (kv :: rest) s = lookupRep rest s := by
        unfold lookupRep
        rw [List.find?_cons_of_neg _ (by simpa using hk)]
      rw [h2]
      have hbeq : (s == kv.1) = false := by
        simp only [beq_eq_false_iff_ne, ne_eq]
        exact fun hcon => hk hcon.symm
      have h1 : fragSubstAll (kv :: rest) (Frag.leaf s) = fragSubstAll rest (.leaf s) := by
        unfold fragSubstAll
        simp only [List.foldl_cons]
        congr 1
        simp [fragSubst1, hbeq]
      rw [h1, ih]

theorem tokenOK_jsonSafe {t : Chars} (h : tokenOK t = true) : jsonSafe t = true := by
  obtain ⟨rest, ht, _, hsafe⟩ := tokenOK_shape h
  subst ht
  exact hsafe

mutual

theorem glue_fragify (reps : List (Chars × RepVal)) (hOK : repsOK reps = true) :
    ∀ j : Json, glue (fragify reps j) = stringify j := by
  intro j
  match j with
  | .null => rfl
  | .bool true => rfl
  | .bool false => rfl
  | .num n =>
    rw [show stringify (.num n) = intChars n from rfl]
    simp [fragify, glue, fragChars]
  | .str s =>
    rw [fragify, show stringify (.str s) = quoteStr s from rfl]
    split
    · rename_i htk
      rw [show glue [Frag.leaf s] = '"' :: s ++ ['"'] from by simp [glue, fragChars],
        quoteStr_of_safe (tokenOK_jsonSafe (isTokenKey_tokenOK hOK htk))]
    · simp [glue, fragChars]
  | .arr xs =>
    rw [fragify, show stringify (.arr xs) = '[' :: stringifyArr xs ++ [']'] from rfl]
    rw [glue, glue_append, glue_fragifyArr reps hOK xs]
    simp [glue, fragChars]
  | .obj kvs =>
    rw [fragify, show stringify (.obj kvs) = '{' :: stringifyObj kvs ++ ['}'] from rfl]
    rw [glue, glue_append, glue_fragifyObj reps hOK kvs]
    simp [glue, fragChars]

theorem glue_fragifyArr (reps : List (Chars × RepVal)) (hOK : repsOK reps = true) :
    ∀ xs : List Json, glue (fragifyArr reps xs) = stringifyArr xs := by
  intro xs
  match xs with
  | [] => rfl
  | [x] =>
    rw [show fragifyArr reps [x] = fragify reps x from rfl,
      show stringifyArr [x] = stringify x from rfl]
    exact glue_fragify reps hOK x
  | x :: y :: rest =>
    rw [show fragifyArr reps (x :: y :: rest) =
        fragify reps x ++ .plain [','] :: fragifyArr reps (y :: rest) from rfl,
      show stringifyArr (x :: y :: rest) = stringify x ++ ',' :: stringifyArr (y :: rest)
        from rfl]
    rw [glue_append, glue_fragify reps hOK x, glue, glue_fragifyArr reps hOK (y :: rest)]
    rfl

theorem glue_fragifyObj (reps : List (Chars × RepVal)) (hOK : repsOK reps = true) :
    ∀ kvs : List (Chars × Json), glue (fragifyObj reps kvs) = stringifyObj kvs := by
  intro kvs
  match kvs with
  | [] => rfl
  | [kv] =>
    rw [show fragifyObj reps [kv] = .plain (quoteStr kv.1 ++ [':']) :: fragify reps kv.2
        from rfl,
      show stringifyObj [kv] = quoteStr kv.1 ++ ':' :: stringify kv.2 from rfl]
    rw [glue, glue_fragify reps hOK kv.2]
    simp [fragChars]
  | kv :: kv2 :: rest =>
    rw [show fragifyObj reps (kv :: kv2 :: rest) =
        .plain (quoteStr kv.1 ++ [':']) :: fragify reps kv.2 ++
          .plain [','] :: fragifyObj reps (kv2 :: rest) from rfl,
      show stringifyObj (kv :: kv2 :: rest) =
        quoteStr kv.1 ++ ':' :: stringify kv.2 ++ ',' :: stringifyObj (kv2 :: rest) from rfl]
    rw [show (Frag.plain (quoteStr kv.1 ++ [':']) :: fragify reps kv.2 ++
        Frag.plain [','] :: fragifyObj reps (kv2 :: rest)) =
      Frag.plain (quoteStr kv.1 ++ [':']) :: (fragify reps kv.2 ++
        Frag.plain [','] :: fragifyObj reps (kv2 :: rest)) from rfl]
    rw [glue, glue_append, glue_fragify reps hOK kv.2, glue,
      glue_fragifyObj reps hOK (kv2 :: rest)]
    simp [fragChars]

end

theorem any_map_fst (reps : List (Chars × RepVal)) (s : Chars) :
    (reps.map (·.1)).any (· == s) = reps.any (fun kv => kv.1 == s) := by
  induction reps with
  | nil => rfl
  | cons kv rest ih => simp only [List.map_cons, List.any_cons, ih]

mutual

theorem fragify_wf (reps : List (Chars × RepVal)) :
    ∀ j : Json, templateOK reps j = true →
      ∀ f ∈ fragify reps j, fragOK (reps.map (·.1)) f = true := by
  intro j
  match j with
  | .null =>
    intro _ f hf
    rw [fragify] at hf
    simp at hf
    subst hf
    show dollarFree (stringify Json.null) = true
    decide
  | .bool true =>
    intro _ f hf
    rw [fragify] at hf
    simp at hf
    subst hf
    show dollarFree (stringify (Json.bool true)) = true
    decide
  | .bool false =>
    intro _ f hf
    rw [fragify] at hf
    simp at hf
    subst hf
    show dollarFree (stringify (Json.bool false)) = true
    decide
  | .num n =>
    intro _ f hf
    rw [fragify] at hf
    simp at hf
    subst hf
    exact intChars_dollarFree n
  | .str s =>
    intro ht f hf
    rw [fragify] at hf
    split at hf
    · rename_i htk
      simp at hf
      subst hf
      show (reps.map (·.1)).any (· == s) = true
      rw [isTokenKey] at htk
      rw [any_map_fst]
      exact htk
    · rename_i htk
      simp at hf
      subst hf
      rw [show templateOK reps (.str s) = (dollarFree s || isTokenKey reps s) from rfl] at ht
      rw [Bool.not_eq_true] at htk
      rw [htk, Bool.or_false] at ht
      exact quoteStr_dollarFree ht
  | .arr xs =>
    intro ht f hf
    rw [fragify] at hf
    rcases List.mem_cons.mp hf with h1 | h1
    · subst h1
      show dollarFree ['['] = true
      decide
    · rcases List.mem_append.mp h1 with h2 | h2
      · exact fragifyArr_wf reps xs (by simpa [templateOK] using ht) f h2
      · simp at h2
        subst h2
        show dollarFree [']'] = true
        decide
  | .obj kvs =>
    intro ht f hf
    rw [fragify] at hf
    rcases List.mem_cons.mp hf with h1 | h1
    · subst h1
      show dollarFree ['{'] = true
      decide
    · rcases List.mem_append.mp h1 with h2 | h2
      · exact fragifyObj_wf reps kvs (by simpa [templateOK] using ht) f h2
      · simp at h2
        subst h2
        show dollarFree ['}'] = true
        decide

theorem fragifyArr_wf (reps : List (Chars × RepVal)) :
    ∀ xs : List Json, templateArrOK reps xs = true →
      ∀ f ∈ fragifyArr reps xs, fragOK (reps.map (·.1)) f = true := by
  intro xs
  match xs with
  | [] => intro _ f hf; rw [fragifyArr] at hf; simp at hf
  | [x] =>
    intro ht f hf
    rw [show fragifyArr reps [x] = fragify reps x from rfl] at hf
    refine fragify_wf reps x ?_ f hf
    rw [show templateArrOK reps [x] = (templateOK reps x && templateArrOK reps []) from rfl,
      Bool.and_eq_true] at ht
    exact ht.1
  | x :: y :: rest =>
    intro ht f hf
    rw [show fragifyArr reps (x :: y :: rest) =
      fragify reps x ++ .plain [','] :: fragifyArr reps (y :: rest) from rfl] at hf
    rw [show templateArrOK reps (x :: y :: rest) =
      (templateOK reps x && templateArrOK reps (y :: rest)) from rfl,
      Bool.and_eq_true] at ht
    rcases List.mem_append.mp hf with h1 | h1
    · exact fragify_wf reps x ht.1 f h1
    · rcases List.mem_cons.mp h1 with h2 | h2
      · subst h2
        show dollarFree [','] = true
        decide
      · exact fragifyArr_wf reps (y :: rest) ht.2 f h2

theorem fragifyObj_wf (reps : List (Chars × RepVal)) :
    ∀ kvs : List (Chars × Json), templateObjOK reps kvs = true →
      ∀ f ∈ fragifyObj reps kvs, fragOK (reps.map (·.1)) f = true := by
  intro kvs
  match kvs with
  | [] => intro _ f hf; rw [fragifyObj] at hf; simp at hf
  | [kv] =>
    intro ht f hf
    rw [show fragifyObj reps [kv] = .plain (quoteStr kv.1 ++ [':']) :: fragify reps kv.2
      from rfl] at hf
    rw [show templateObjOK reps [kv] =
      (dollarFree kv.1 && templateOK reps kv.2 && templateObjOK reps []) from rfl,
      Bool.and_eq_true, Bool.and_eq_true] at ht
    rcases List.mem_cons.mp hf with h1 | h1
    · subst h1
      exact dollarFree_app (quoteStr_dollarFree ht.1.1) (by decide)
    · exact fragify_wf reps kv.2 ht.1.2 f h1
  | kv :: kv2 :: rest =>
    intro ht f hf
    rw [show fragifyObj reps (kv :: kv2 :: rest) =
      .plain (quoteStr kv.1 ++ [':']) :: fragify reps kv.2 ++
        .plain [','] :: fragifyObj reps (kv2 :: rest) from rfl] at hf
    rw [show templateObjOK reps (kv :: kv2 :: rest) =
      (dollarFree kv.1 && templateOK reps kv.2 && templateObjOK reps (kv2 :: rest)) from rfl,
      Bool.and_eq_true, Bool.and_eq_true] at ht
    rcases List.mem_cons.mp hf with h1 | h1
    · subst h1
      exact dollarFree_app (quoteStr_dollarFree ht.1.1) (by decide)
    · rcases List.mem_append.mp h1 with h2 | h2
      · exact fragify_wf reps kv.2 ht.1.2 f h2
      · rcases List.mem_cons.mp h2 with h3 | h3
        · subst h3
          show dollarFree [','] = true
          decide
        · exact fragifyObj_wf reps (kv2 :: rest) ht.2 f h3

end

theorem fragOK_subst1 {keys : List Chars} {f : Frag} (hf : fragOK keys f = true)
    {k : Chars} {v : RepVal} (hv : repClean v = true) :
    fragOK keys (fragSubst1 k v f) = true := by
  match f with
  | .plain p => exact hf
  | .leaf tok =>
    rw [fragSubst1]
    split
    · exact repClean_dollarFree hv
    · exact hf

/-- Folding the whole replacement list at the string level equals folding it
fragment by fragment. -/
theorem applyRepsStr_glue_frags (keys : List Chars)
    (hkeys : ∀ t ∈ keys, tokenOK t = true) :
    ∀ (rlist : List (Chars × RepVal)),
      (∀ kv ∈ rlist, tokenOK kv.1 = true ∧ repClean kv.2 = true) →
      ∀ (fs : List Frag), (∀ f ∈ fs, fragOK keys f = true) →
        applyRepsStr rlist (glue fs) = glue (fs.map (fragSubstAll rlist)) := by
  intro rlist
  induction rlist with
  | nil =>
    intro _ fs _
    rw [show applyRepsStr [] (glue fs) = glue fs from rfl]
    rw [show fs.map (fragSubstAll []) = fs.map id from rfl, List.map_id]
  | cons kv rest ih =>
    intro hr fs hwf
    have hk := (hr kv (List.mem_cons_self _ _)).1
    have hv := (hr kv (List.mem_cons_self _ _)).2
    rw [show applyRepsStr (kv :: rest) (glue fs) =
      applyRepsStr rest (replaceAll ('"' :: kv.1 ++ ['"']) (repChars kv.2) (glue fs))
      from rfl]
    rw [replaceAll_glue_frags kv.1 kv.2 keys hkeys hk fs hwf]
    rw [ih (fun x hx => hr x (List.mem_cons_of_mem _ hx))
      (fs.map (fragSubst1 kv.1 kv.2))
      (by
        intro f hf
        rcases List.mem_map.mp hf with ⟨g, hg, hmap⟩
        subst hmap
        exact fragOK_subst1 (hwf g hg) hv)]
    rw [List.map_map]
    congr 1

mutual

theorem glue_subst_fragify (reps : List (Chars × RepVal)) (hOK : repsOK reps = true) :
    ∀ j : Json, templateOK reps j = true →
      glue ((fragify reps j).map (fragSubstAll reps)) = stringify (substTree reps j) := by
  intro j
  match j with
  | .null =>
    intro _
    rw [fragify, List.map_cons, List.map_nil, fragSubstAll_plain,
      show substTree reps .null = .null from rfl]
    simp [glue, fragChars]
  | .bool true =>
    intro _
    rw [fragify, List.map_cons, List.map_nil, fragSubstAll_plain,
      show substTree reps (.bool true) = .bool true from rfl]
    simp [glue, fragChars]
  | .bool false =>
    intro _
    rw [fragify, List.map_cons, List.map_nil, fragSubstAll_plain,
      show substTree reps (.bool false) = .bool false from rfl]
    simp [glue, fragChars]
  | .num n =>
    intro _
    rw [fragify, List.map_cons, List.map_nil, fragSubstAll_plain]
    rw [show substTree reps (.num n) = .num n from rfl,
      show stringify (.num n) = intChars n from rfl]
    simp [glue, fragChars]
  | .str s =>
    intro ht
    rw [fragify]
    split
    · rename_i htk
      obtain ⟨v, hv⟩ := isTokenKey_true_lookup htk
      rw [List.map_cons, List.map_nil, fragSubstAll_leaf, hv]
      rw [show substTree reps (.str s) = (match lookupRep reps s with
        | some r => repJson r
        | none => .str s) from rfl, hv]
      have hvmem : ∃ kv ∈ reps, kv.2 = v := by
        unfold lookupRep at hv
        cases hfind : reps.find? (fun kv => kv.1 == s) with
        | none => rw [hfind] at hv; exact absurd hv (by simp)
        | some kv =>
          rw [hfind] at hv
          exact ⟨kv, List.mem_of_find?_eq_some hfind, by simpa using hv⟩
      obtain ⟨kv, hkvmem, hkv2⟩ := hvmem
      have hclean : repClean v = true := hkv2 ▸ (repsOK_token hOK kv hkvmem).2
      match v, hclean with
      | .strV w, hclean =>
        show glue [Frag.plain (repChars (RepVal.strV w))] =
          stringify (repJson (RepVal.strV w))
        rw [show repJson (.strV w) = .str w from rfl,
          show stringify (.str w) = quoteStr w from rfl]
        rw [quoteStr_of_safe (by
          rw [repClean, Bool.and_eq_true] at hclean
          exact hclean.2)]
        simp [glue, fragChars, repChars]
      | .jsonV jv, _ =>
        show glue [Frag.plain (repChars (RepVal.jsonV jv))] =
          stringify (repJson (RepVal.jsonV jv))
        simp [glue, fragChars, repChars, repJson]
    · rename_i htk
      rw [Bool.not_eq_true] at htk
      rw [List.map_cons, List.map_nil, fragSubstAll_plain]
      rw [show substTree reps (.str s) = (match lookupRep reps s with
        | some r => repJson r
        | none => .str s) from rfl, isTokenKey_false_lookup htk]
      rw [show stringify (.str s) = quoteStr s from rfl]
      simp [glue, fragChars]
  | .arr xs =>
    intro ht
    rw [fragify, List.map_cons, List.map_append, List.map_cons, List.map_nil,
      fragSubstAll_plain, fragSubstAll_plain]
    rw [show substTree reps (.arr xs) = .arr (substTreeArr reps xs) from rfl,
      show stringify (.arr (substTreeArr reps xs)) =
        '[' :: stringifyArr (substTreeArr reps xs) ++ [']'] from rfl]
    rw [glue, glue_append]
    rw [glue_subst_fragifyArr reps hOK xs (by simpa [templateOK] using ht)]
    simp [glue, fragChars]
  | .obj kvs =>
    intro ht
    rw [fragify, List.map_cons, List.map_append, List.map_cons, List.map_nil,
      fragSubstAll_plain, fragSubstAll_plain]
    rw [show substTree reps (.obj kvs) = .obj (substTreeObj reps kvs) from rfl,
      show stringify (.obj (substTreeObj reps kvs)) =
        '{' :: stringifyObj (substTreeObj reps kvs) ++ ['}'] from rfl]
    rw [glue, glue_append]
    rw [glue_subst_fragifyObj reps hOK kvs (by simpa [templateOK] using ht)]
    simp [glue, fragChars]

theorem glue_subst_fragifyArr (reps : List (Chars × RepVal)) (hOK : repsOK reps = true) :
    ∀ xs : List Json, templateArrOK reps xs = true →
      glue ((fragifyArr reps xs).map (fragSubstAll reps)) =
        stringifyArr (substTreeArr reps xs) := by
  intro xs
  match xs with
  | [] => intro _; rfl
  | [x] =>
    intro ht
    rw [show fragifyArr reps [x] = fragify reps x from rfl,
      show substTreeArr reps [x] = [substTree reps x] from rfl,
      show stringifyArr [substTree reps x] = stringify (substTree reps x) from rfl]
    refine glue_subst_fragify reps hOK x ?_
    rw [show templateArrOK reps [x] = (templateOK reps x && templateArrOK reps []) from rfl,
      Bool.and_eq_true] at ht
    exact ht.1
  | x :: y :: rest =>
    intro ht
    rw [show templateArrOK reps (x :: y :: rest) =
      (templateOK reps x && templateArrOK reps (y :: rest)) from rfl,
      Bool.and_eq_true] at ht
    rw [show fragifyArr reps (x :: y :: rest) =
      fragify reps x ++ .plain [','] :: fragifyArr reps (y :: rest) from rfl]
    rw [List.map_append, List.map_cons, fragSubstAll_plain, glue_append, glue]
    rw [glue_subst_fragify reps hOK x ht.1,
      glue_subst_fragifyArr reps hOK (y :: rest) ht.2]
    rw [show substTreeArr reps (x :: y :: rest) =
      substTree reps x :: substTreeArr reps (y :: rest) from rfl]
    rw [show substTreeArr reps (y :: rest) =
      substTree reps y :: substTreeArr reps rest from rfl]
    rw [show stringifyArr (substTree reps x :: substTree reps y :: substTreeArr reps rest) =
      stringify (substTree reps x) ++
        ',' :: stringifyArr (substTree reps y :: substTreeArr reps rest) from rfl]
    rfl

theorem glue_subst_fragifyObj (reps : List (Chars × RepVal)) (hOK : repsOK reps = true) :
    ∀ kvs : List (Chars × Json), templateObjOK reps kvs = true →
      glue ((fragifyObj reps kvs).map (fragSubstAll reps)) =
        stringifyObj (substTreeObj reps kvs) := by
  intro kvs
  match kvs with
  | [] => intro _; rfl
  | [kv] =>
    intro ht
    rw [show templateObjOK reps [kv] =
      (dollarFree kv.1 && templateOK reps kv.2 && templateObjOK reps []) from rfl,
      Bool.and_eq_true, Bool.and_eq_true] at ht
    rw [show fragifyObj reps [kv] = .plain (quoteStr kv.1 ++ [':']) :: fragify reps kv.2
      from rfl]
    rw [List.map_cons, fragSubstAll_plain, glue]
    rw [glue_subst_fragify reps hOK kv.2 ht.1.2]
    rw [show substTreeObj reps [kv] = [(kv.1, substTree reps kv.2)] from rfl]
    rw [show stringifyObj [(kv.1, substTree reps kv.2)] =
      quoteStr kv.1 ++ ':' :: stringify (substTree reps kv.2) from rfl]
    simp [fragChars]
  | kv :: kv2 :: rest =>
    intro ht
    rw [show templateObjOK reps (kv :: kv2 :: rest) =
      (dollarFree kv.1 && templateOK reps kv.2 && templateObjOK reps (kv2 :: rest)) from rfl,
      Bool.and_eq_true, Bool.and_eq_true] at ht
    rw [show fragifyObj reps (kv :: kv2 :: rest) =
      .plain (quoteStr kv.1 ++ [':']) :: fragify reps kv.2 ++
        .plain [','] :: fragifyObj reps (kv2 :: rest) from rfl]
    rw [show (Frag.plain (quoteStr kv.1 ++ [':']) :: fragify reps kv.2 ++
        Frag.plain [','] :: fragifyObj reps (kv2 :: rest)) =
      Frag.plain (quoteStr kv.1 ++ [':']) :: (fragify reps kv.2 ++
        Frag.plain [','] :: fragifyObj reps (kv2 :: rest)) from rfl]
    rw [List.map_cons, fragSubstAll_plain, glue, List.map_append, List.map_cons,
      fragSubstAll_plain, glue_append, glue]
    rw [glue_subst_fragify reps hOK kv.2 ht.1.2,
      glue_subst_fragifyObj reps hOK (kv2 :: rest) ht.2]
    rw [show substTreeObj reps (kv :: kv2 :: rest) =
      (kv.1, substTree reps kv.2) :: substTreeObj reps (kv2 :: rest) from rfl]
    rw [show substTreeObj reps (kv2 :: rest) =
      (kv2.1, substTree reps kv2.2) :: substTreeObj reps rest from rfl]
    rw [show stringifyObj ((kv.1, substTree reps kv.2) ::
        (kv2.1, substTree reps kv2.2) :: substTreeObj reps rest) =
      quoteStr kv.1 ++ ':' :: stringify (substTree reps kv.2) ++
        ',' :: stringifyObj ((kv2.1, substTree reps kv2.2) :: substTreeObj reps rest)
      from rfl]
    simp [fragChars]

end

/-- The serialize-replace pipeline equals the structural substitution: on a
template whose tokens occur only as whole quoted string values, the folded
textual replacement of all patterns produces exactly the serialization of the
tree with those leaves replaced. -/
theorem applyVariableSubstitution_structural
    (t : Json) (reps : List (Chars × RepVal))
    (hOK : repsOK reps = true) (ht : templateOK reps t = true) :
    applyVariableSubstitution t reps = stringify (substTree reps t) := by
  have hkeys : ∀ k ∈ reps.map (·.1), tokenOK k = true := by
    intro k hk
    rcases List.mem_map.mp hk with ⟨kv, hkv, hmap⟩
    exact hmap ▸ (repsOK_token hOK kv hkv).1
  have h0 : applyVariableSubstitution t reps = applyRepsStr reps (stringify t) := rfl
  rw [h0, ← glue_fragify reps hOK t,
    applyRepsStr_glue_frags (reps.map (·.1)) hkeys reps (repsOK_token hOK)
      (fragify reps t) (fragify_wf reps t ht)]
  exact glue_subst_fragify reps hOK t ht

/-- C8: for a template in which the placeholder tokens occur only as whole
quoted string values (all other strings and keys dollar-free) and concrete
values free of dollars and escapes, the substitution performed at
itemModel.ts 841-848 — fallback, model, type, parent, folder, id in order,
each replacing the whole quoted token, string values re-quoted and the
fallback value spliced as a serialized subtree — produces precisely the
serialization of the template tree with those token leaves replaced and
nothing else altered, so the final JSON.parse yields that tree. -/
theorem template_substitution_structural
    (t fallbackDefinition : Json) (modelPath typeName : Chars)
    (parent : Option Chars) (folder id : Chars)
    (ht : templateOK
      (entryReplacements fallbackDefinition modelPath typeName parent folder id) t = true)
    (hfb : cleanJson fallbackDefinition = true)
    (hmp : (dollarFree modelPath && jsonSafe modelPath) = true)
    (hty : (dollarFree typeName && jsonSafe typeName) = true)
    (hpr : (dollarFree (parent.getD []) && jsonSafe (parent.getD [])) = true)
    (hfo : (dollarFree folder && jsonSafe folder) = true)
    (hid : (dollarFree id && jsonSafe id) = true) :
    applyVariableSubstitution t
        (entryReplacements fallbackDefinition modelPath typeName parent folder id) =
      stringify (substTree
        (entryReplacements fallbackDefinition modelPath typeName parent folder id) t) := by
  apply applyVariableSubstitution_structural t _ ?_ ht
  simp only [repsOK, entryReplacements, List.all_cons, List.all_nil, Bool.and_eq_true,
    Bool.and_true, repClean]
  rw [Bool.and_eq_true] at hmp hty hpr hfo hid
  exact ⟨⟨by decide, hfb⟩, ⟨by decide, hmp.1, hmp.2⟩, ⟨by decide, hty.1, hty.2⟩,
    ⟨by decide, hpr.1, hpr.2⟩, ⟨by decide, hfo.1, hfo.2⟩, by decide, hid.1, hid.2⟩

/-- Witness for template_substitution_structural: a concrete template holding
the model, type and fallback tokens, with the red_apple values. -/
theorem template_substitution_structural_witness :
    (templateOK
      (entryReplacements
        (.obj [("type".data, .str "model".data), ("model".data, .str "item/apple".data)])
        "supermodel:item/red_apple/red_apple".data "apple".data none
        "red_apple".data "red_apple".data)
      (.obj [("model".data, .str "$model".data),
             ("display".data, .obj [("kind".data, .str "$type".data),
                                    ("fb".data, .str "$fallback".data)])]) = true) ∧
    applyVariableSubstitution
        (.obj [("model".data, .str "$model".data),
               ("display".data, .obj [("kind".data, .str "$type".data),
                                      ("fb".data, .str "$fallback".data)])])
        (entryReplacements
          (.obj [("type".data, .str "model".data), ("model".data, .str "item/apple".data)])
          "supermodel:item/red_apple/red_apple".data "apple".data none
          "red_apple".data "red_apple".data) =
      stringify (substTree
        (entryReplacements
          (.obj [("type".data, .str "model".data), ("model".data, .str "item/apple".data)])
          "supermodel:item/red_apple/red_apple".data "apple".data none
          "red_apple".data "red_apple".data)
        (.obj [("model".data, .str "$model".data),
               ("display".data, .obj [("kind".data, .str "$type".data),
                                      ("fb".data, .str "$fallback".data)])])) := by
  refine ⟨by decide, ?_⟩
  exact template_substitution_structural _ _ _ _ _ _ _ (by decide) (by decide) (by decide)
    (by decide) (by decide) (by decide) (by decide)
